import Mathlib

/-!
# Verification of the Lume lexer (`src/lexer/mod.rs`, `src/lexer/token.rs`,
`src/span.rs`, `src/error.rs`)

Shallow embedding of the lexical analyzer.  The scanner state
(`Peekable<CharIndices>` plus the byte position `pos`) is modelled as a
`List Char` of the not-yet-consumed characters together with the byte
offset of its head; consuming a character `c` advances the offset by
`c.utf8Size`, exactly as `CharIndices` does.  The main loop is given fuel
(one unit per loop iteration); since every iteration consumes at least one
character, `source.length + 1` units always suffice.

Machine integers: `i64` values are modelled as `Int` with the
`i64::from_str_radix` overflow bound `2^63 - 1` made explicit (only
unsigned digit strings ever reach it).  `f64` values are not modelled;
`Token.Float` carries the underscore-stripped literal text and the
embedding models only the *success or failure* of `str::parse::<f64>`
(the acceptor `f64ParseOk` below), which is all the lexer's control flow
depends on.
-/

namespace Lume

/-- `src/span.rs`: byte-offset range plus source (file) name.
The Rust field `end` is a Lean keyword, hence the guillemets. -/
structure Span where
  start : Nat
  «end» : Nat
  file : String
deriving DecidableEq, Repr

set_option maxHeartbeats 1600000

/-- `src/lexer/token.rs`: the closed token union.  `Float` carries the
cleaned literal text instead of the parsed `f64` (see module comment). -/
inductive Token where
  -- Keywords
  | Let | Mut | Func | If | Else | Match | Case | On | Own | Throws
  | Recover | Return | Import | Export | From | Enum | Class | With | Type | Is
  -- Literals
  | Int (v : Int)
  | Float (text : String)
  | Str (s : String)
  | PrefixedStr (p : String) (s : String)
  | Char (c : Char)
  | PrefixedChar (p : String) (c : Char)
  | Bool (b : Bool)
  -- Identifiers
  | Ident (s : String)
  | Lifetime (s : String)
  -- Operators
  | Plus | Minus | Star | Slash | Eq | EqEq | Neq | Percent | PercentEq
  | Lt | Gt | Le | Ge | And | Or | Not
  -- Bitwise operators
  | Amp | Pipe | Caret | Tilde | Shl | Shr
  -- Compound assignment
  | PlusEq | MinusEq | StarEq | SlashEq | AmpEq | PipeEq | CaretEq | ShlEq | ShrEq
  -- Delimiters
  | LParen | RParen | LBrace | RBrace | LBracket | RBracket
  | Comma | Semicolon | Dot | Colon | Arrow
  -- Special
  | Question | FatArrow | Eof

/-- `src/error.rs`: only the `Lexical` variant is ever produced by the
lexer module. -/
inductive LumeError where
  | Lexical (msg : String) (span : Span)
  | Syntax (msg : String) (span : Span)
  | TypeError (msg : String) (span : Span)
  | OwnershipError (msg : String) (span : Span)
  | RuntimeError (msg : String) (span : Span)

/-- `token::keyword_or_ident`. -/
def keyword_or_ident (ident : String) : Token :=
  match ident with
  | "let" => Token.Let
  | "mut" => Token.Mut
  | "func" => Token.Func
  | "if" => Token.If
  | "else" => Token.Else
  | "match" => Token.Match
  | "case" => Token.Case
  | "on" => Token.On
  | "own" => Token.Own
  | "throws" => Token.Throws
  | "recover" => Token.Recover
  | "return" => Token.Return
  | "import" => Token.Import
  | "export" => Token.Export
  | "from" => Token.From
  | "enum" => Token.Enum
  | "class" => Token.Class
  | "with" => Token.With
  | "type" => Token.Type
  | "is" => Token.Is
  | "and" => Token.And
  | "or" => Token.Or
  | "not" => Token.Not
  | "true" => Token.Bool true
  | "false" => Token.Bool false
  | _ => Token.Ident ident

/-- Total UTF-8 byte length of a character list (`str::len` on the
corresponding Rust string slice). -/
def utf8Len : List Char → Nat
  | [] => 0
  | c :: cs => c.utf8Size + utf8Len cs

/-- `Lexer::new` shebang handling: a leading `#!` line is removed; if the
shebang line never ends, the whole source is dropped. -/
def stripShebang (source : List Char) : List Char :=
  if source.take 2 = ['#', '!'] then
    match source.dropWhile (fun c => c ≠ '\n') with
    | [] => []                -- no '\n' found: `""`
    | _ :: t => t             -- `&source[idx + 1..]`
  else source

/-- `char::is_ascii_hexdigit`. -/
def isAsciiHexdigit (c : Char) : Bool :=
  c.isDigit || ('a' ≤ c && c ≤ 'f') || ('A' ≤ c && c ≤ 'F')

/-- `std::char::from_u32`: `None` exactly on surrogates and values above
`char::MAX`. -/
def charFromU32 (n : Nat) : Option Char :=
  if n < 0xD800 ∨ (0xDFFF < n ∧ n < 0x110000) then
    some (Char.ofNat n)
  else
    none

/-- Numeric value of an ASCII (hex) digit. -/
def digitVal (c : Char) : Option Nat :=
  if c.isDigit then some (c.toNat - 48)
  else if 'a' ≤ c && c ≤ 'f' then some (c.toNat - 87)
  else if 'A' ≤ c && c ≤ 'F' then some (c.toNat - 55)
  else none

/-- One step of the radix parse: `acc * base + digit`, failing on an
invalid digit. -/
def radixStep (base : Nat) (acc : Option Nat) (c : Char) : Option Nat := do
  let a ← acc
  let d ← digitVal c
  if d < base then some (a * base + d) else none

/-- Radix parse of an (unsigned) digit string to `Nat`; `none` on an
invalid digit. -/
def parseRadixNat (base : Nat) (l : List Char) : Option Nat :=
  l.foldl (radixStep base) (some 0)

/-- `i64_from_radix` (`src/lexer/mod.rs` bottom): wraps
`i64::from_str_radix`.  Callers only ever pass unsigned digit strings, so
the sign handling of the Rust std function is irrelevant; the overflow
bound for a non-negative `i64` is `2^63 - 1`. -/
def i64_from_radix (s : List Char) (base : Nat) : Except Unit Int :=
  if s.isEmpty then .error ()
  else
    match parseRadixNat base s with
    | none => .error ()
    | some n => if n ≤ 2 ^ 63 - 1 then .ok (Int.ofNat n) else .error ()

/-- `u32::from_str_radix(_, 16)` on a hex-digit string: `none` on empty
input, an invalid digit, or overflow past `u32::MAX`. -/
def u32FromHex (s : List Char) : Option Nat :=
  if s.isEmpty then none
  else
    match parseRadixNat 16 s with
    | none => none
    | some n => if n < 2 ^ 32 then some n else none

/-- Acceptor for `str::parse::<f64>` (Rust `dec2flt` grammar):
`[+-]? (inf|infinity|nan (ASCII case-insensitive) | digits [. digits*]? |
. digits) [eE [+-]? digits]?`, consuming the whole string.  Only the
accept/reject outcome is modelled; see the module comment. -/
def f64ParseOk (s : List Char) : Bool :=
  let s1 := match s with
    | c :: r => if c = '+' || c = '-' then r else s
    | [] => s
  let lower := s1.map Char.toLower
  if lower = "inf".data || lower = "infinity".data || lower = "nan".data then
    true
  else
    let d1 := s1.takeWhile Char.isDigit
    let r1 := s1.dropWhile Char.isDigit
    let (d2, r2) : List Char × List Char :=
      match r1 with
      | '.' :: r => (r.takeWhile Char.isDigit, r.dropWhile Char.isDigit)
      | _ => ([], r1)
    if d1.isEmpty && d2.isEmpty then false
    else
      match r2 with
      | [] => true
      | e :: r3 =>
        if e = 'e' || e = 'E' then
          let r4 := match r3 with
            | c :: r' => if c = '+' || c = '-' then r' else r3
            | [] => r3
          let d3 := r4.takeWhile Char.isDigit
          let r5 := r4.dropWhile Char.isDigit
          !d3.isEmpty && r5.isEmpty
        else false

/-- The digit-run loops of `read_number`: consume characters that are `'_'`
or satisfy `pred`, returning the consumed run, whether a `pred`-character
(a real digit) was seen, and the remainder. -/
def takeRun (pred : Char → Bool) : List Char → List Char × Bool × List Char
  | [] => ([], false, [])
  | c :: rest =>
    if c = '_' then
      let (s, d, r) := takeRun pred rest
      (c :: s, d, r)
    else if pred c then
      let (s, d, r) := takeRun pred rest
      (c :: s, true, r)
    else ([], false, c :: rest)

/-- `read_number`'s per-base digit alphabet (the `valid_chars` table). -/
def valid_chars (base : Nat) : String :=
  match base with
  | 2 => "01"
  | 8 => "01234567"
  | 10 => "0123456789"
  | 16 => "0123456789abcdefABCDEF"
  | _ => ""   -- `unreachable!()` in the source

/-- The base-prefix detection of `read_number` (its first `match` on the
leading characters), together with the base-10 digit run: produces
`(base, num_str, i, rest)`. -/
def read_number_prefix (cs : List Char) : Nat × List Char × Nat × List Char :=
  match cs with
  | '0' :: c1 :: rest =>        -- `chars.len() > 1`
    if c1 = 'x' || c1 = 'X' then (16, ['0', c1], 2, rest)
    else if c1 = 'b' || c1 = 'B' then (2, ['0', c1], 2, rest)
    else if c1 = 'o' || c1 = 'O' then (8, ['0', c1], 2, rest)
    else
      let (run, _, r) := takeRun Char.isDigit (c1 :: rest)
      (10, '0' :: run, 1 + run.length, r)
  | _ =>
    let (run, _, r) := takeRun Char.isDigit cs
    (10, run, run.length, r)

/-- The fractional-part check of `read_number` (runs unconditionally,
also after a base prefix). -/
def read_number_dot (numStr1 : List Char) (i1 : Nat) (rest1 : List Char) :
    Bool × List Char × Nat × List Char :=
  match rest1 with
  | '.' :: r2 =>
    match r2 with
    | d :: _ =>
      if d.isDigit then
        let (run, _, r) := takeRun Char.isDigit r2
        (true, numStr1 ++ '.' :: run, i1 + 1 + run.length, r)
      else (false, numStr1, i1, rest1)
    | [] => (false, numStr1, i1, rest1)
  | _ => (false, numStr1, i1, rest1)

/-- The exponent check of `read_number` (the source `return Err(..)`s on a
digit-free exponent). -/
def read_number_exp (file : String) (start : Nat) (numStr2 : List Char) (i2 : Nat)
    (rest2 : List Char) : Except LumeError (Bool × List Char × Nat) :=
  match rest2 with
  | e :: r2 =>
    if e = 'e' || e = 'E' then
      let (sgn, iSgn, r3) : List Char × Nat × List Char :=
        match r2 with
        | s :: r3x => if s = '+' || s = '-' then ([s], 1, r3x) else ([], 0, r2)
        | [] => ([], 0, r2)
      let (run, hasDigit, _) := takeRun Char.isDigit r3
      if !hasDigit then
        .error (.Lexical "invalid exponent" ⟨start, start + (i2 + 1 + iSgn + run.length), file⟩)
      else
        .ok (true, numStr2 ++ e :: sgn ++ run, i2 + 1 + iSgn + run.length)
    else
      .ok (false, numStr2, i2)
  | [] => .ok (false, numStr2, i2)

/-- `Lexer::read_number`.  Pure with respect to the character iterator
(the Rust code re-slices `self.source[start..]`); `cs` is the source text
from `start` on, and the returned `Nat` is the end offset `start + i`
(every consumed character is ASCII, so the count `i` equals the byte
length). -/
def read_number (srcLen : Nat) (file : String) (start : Nat) (cs : List Char) :
    Except LumeError (Token × Nat) :=
  -- base-prefix detection, plus the base-10 digit run
  match read_number_prefix cs with
  | (base, numStr0, i0, rest0) =>
  -- for prefixed numbers, continue parsing with the appropriate base
  -- (the source `return Err(..)`s on a digit-free run)
  match (if base ≠ 10 then
      let (run, hasDigit, r) := takeRun (fun c => (valid_chars base).data.contains c) rest0
      if !hasDigit then
        .error (.Lexical "invalid integer literal" ⟨start, start + (i0 + run.length), file⟩)
      else
        .ok (numStr0 ++ run, i0 + run.length, r)
    else
      .ok (numStr0, i0, rest0) : Except LumeError (List Char × Nat × List Char)) with
  | .error e => .error e
  | .ok (numStr1, i1, rest1) =>
  -- check for decimal point (float)
  match read_number_dot numStr1 i1 rest1 with
  | (has_dot, numStr2, i2, rest2) =>
  -- check for exponent (the source `return Err(..)`s on a digit-free exponent)
  match read_number_exp file start numStr2 i2 rest2 with
  | .error e => .error e
  | .ok (has_exp, numStr3, i3) =>
  -- remove underscores
  let clean := numStr3.filter (fun c => c ≠ '_')
  if clean.isEmpty || clean = ['.'] || clean.head? = some '.' || clean.getLast? = some '.' then
    .error (.Lexical "invalid number literal" ⟨start, start + i3, file⟩)
  else if has_dot || has_exp then
    if f64ParseOk clean then
      .ok (Token.Float (String.mk clean), start + i3)
    else
      .error (.Lexical "invalid float literal" ⟨start, start + i3, file⟩)
  else
    -- regular decimal and prefixed numbers
    let value_str := if base ≠ 10 then clean.drop 2 else clean
    match i64_from_radix value_str base with
    | .error _ => .error (.Lexical "integer literal too large" ⟨start, start + i3, file⟩)
    | .ok v => .ok (Token.Int v, start + i3)

/-- The continuation test of `read_ident`'s loop:
`ch.is_alphanumeric() || *ch == '_' || *ch > '\u{7F}'` (every non-ASCII
character passes the last disjunct, so the ASCII `Char.isAlphanum`
coincides with Rust's Unicode `is_alphanumeric` here). -/
def identRunCond (c : Char) : Bool :=
  c.isAlphanum || c = '_' || 0x7F < c.toNat

/-- Loop of `Lexer::read_ident`: `len` accumulates UTF-8 bytes, the final
component is the updated `self.pos = start + len`. -/
def read_ident_go (start : Nat) (acc : String) (len : Nat) :
    List Char → Nat → String × List Char × Nat × Nat
  | [], off => (acc, [], off, start + len)
  | c :: rest, off =>
    if identRunCond c then
      read_ident_go start (acc.push c) (len + c.utf8Size) rest (off + c.utf8Size)
    else
      (acc, c :: rest, off, start + len)

/-- `Lexer::read_ident` (always `Ok` in the source, hence no `Except`). -/
def read_ident (first : Char) (start : Nat) (cs : List Char) (off : Nat) :
    String × List Char × Nat × Nat :=
  read_ident_go start first.toString first.utf8Size cs off

/-- The `\u{...}` hex-digit loop of `read_escape`.  Note the loop exits
without error when the input ends before `}` (the Rust `while let` simply
stops peeking). -/
def readHexRun (srcLen : Nat) (file : String) (pos : Nat) :
    List Char → Nat → String → Except LumeError (String × List Char × Nat)
  | [], off, hex => .ok (hex, [], off)
  | c :: rest, off, hex =>
    if c = '}' then .ok (hex, rest, off + 1)
    else if isAsciiHexdigit c then
      readHexRun srcLen file pos rest (off + 1) (hex.push c)
    else
      .error (.Lexical "invalid hex digit in \\u\x7b...\x7d" ⟨pos, pos + 1, file⟩)

/-- `Lexer::read_escape`.  `pos` is `self.pos`, which this function reads
for its error spans but never writes. -/
def read_escape (srcLen : Nat) (file : String) (pos : Nat) :
    List Char → Nat → Except LumeError (Char × List Char × Nat)
  | [], _ => .error (.Lexical "unterminated escape sequence" ⟨pos, srcLen, file⟩)
  | c :: rest, off =>
    if c = 'n' then .ok ('\n', rest, off + 1)
    else if c = 'r' then .ok ('\r', rest, off + 1)
    else if c = 't' then .ok ('\t', rest, off + 1)
    else if c = '\\' then .ok ('\\', rest, off + 1)
    else if c = '"' then .ok ('"', rest, off + 1)
    else if c = '\'' then .ok ('\'', rest, off + 1)
    else if c = 'u' then
      match rest with
      | '{' :: rest2 =>
        match readHexRun srcLen file pos rest2 (off + 2) "" with
        | .error e => .error e
        | .ok (hex, cs1, off1) =>
          if hex.length = 0 || hex.length > 6 then
            .error (.Lexical "unicode escape must have 1-6 hex digits" ⟨pos, pos + 1, file⟩)
          else
            match u32FromHex hex.data with
            | none =>   -- unreachable: ≤ 6 checked hex digits always parse
              .error (.Lexical "invalid unicode escape" ⟨pos, pos + 1, file⟩)
            | some codepoint =>
              match charFromU32 codepoint with
              | some ch => .ok (ch, cs1, off1)
              | none => .error (.Lexical "invalid unicode codepoint" ⟨pos, pos + 1, file⟩)
      | _ => .error (.Lexical "expected '\x7b' after \\u" ⟨pos, pos + 1, file⟩)
    else
      .error (.Lexical ("unknown escape sequence \\" ++ c.toString) ⟨pos, pos + 1, file⟩)

/-- Loop of `Lexer::read_string_content`; `start_pos` is the entry value
of `self.pos` (used by the unterminated-string span), `s` the content
accumulator, `pos` the current `self.pos`.  Returns
`(content, end, remaining stream, its offset)` with `end = self.pos + 1`
as at the `return` in the source.  Fuel: one unit per loop iteration. -/
def read_string_content_go (srcLen : Nat) (file : String) (allow_escape : Bool)
    (start_pos : Nat) :
    Nat → String → List Char → Nat → Nat → Except LumeError (String × Nat × List Char × Nat)
  | _, _, [], _, _ =>
    .error (.Lexical "unterminated string literal" ⟨start_pos, srcLen, file⟩)
  | 0, _, _ :: _, _, _ =>
    .error (.Lexical "internal: fuel exhausted" ⟨0, 0, ""⟩)  -- never reached with fuel ≥ length
  | fuel + 1, s, c :: rest, off, pos =>
    if c = '"' then .ok (s, pos + 1, rest, off + 1)
    else if allow_escape && c = '\\' then
      match read_escape srcLen file pos rest (off + 1) with
      | .error e => .error e
      | .ok (esc, cs1, off1) =>
        read_string_content_go srcLen file allow_escape start_pos fuel (s.push esc) cs1 off1 off
    else
      read_string_content_go srcLen file allow_escape start_pos fuel (s.push c) rest
        (off + c.utf8Size) off

/-- `Lexer::read_string_content` (entry: `start_pos = self.pos`). -/
def read_string_content (srcLen : Nat) (file : String) (allow_escape : Bool)
    (fuel : Nat) (cs : List Char) (off pos : Nat) :
    Except LumeError (String × Nat × List Char × Nat) :=
  read_string_content_go srcLen file allow_escape pos fuel "" cs off pos

/-- `Lexer::read_char_literal`.  Returns the token, the remaining stream
with its offset, and the updated `self.pos` (the offset just past the
closing quote, or `source.len()` at end of input). -/
def read_char_literal (srcLen : Nat) (file : String) (start : Nat) :
    List Char → Nat → Nat → Except LumeError (Token × List Char × Nat × Nat)
  | [], _, _ => .error (.Lexical "unterminated character literal" ⟨start, srcLen, file⟩)
  | '\'' :: _, _, _ => .error (.Lexical "empty character literal" ⟨start, start + 2, file⟩)
  | c :: rest, off, pos =>
    match (if c = '\\' then read_escape srcLen file pos rest (off + 1)
        else .ok (c, rest, off + c.utf8Size)) with
    | .error e => .error e
    | .ok (ch, cs1, off1) =>
      match cs1 with
      | '\'' :: cs2 =>
        let pos' := match cs2 with
          | [] => srcLen
          | _ => off1 + 1
        .ok (Token.Char ch, cs2, off1 + 1, pos')
      | _ => .error (.Lexical "character literal must contain exactly one character"
          ⟨start, pos + 1, file⟩)

/-- `Lexer::read_prefixed_char` (opening quote already consumed).  The
returned `Nat` is the `end` offset computed from the next peeked index. -/
def read_prefixed_char (srcLen : Nat) (file : String) (pfx : String) (prefix_start : Nat) :
    List Char → Nat → Nat → Except LumeError ((Token × Nat) × List Char × Nat)
  | [], _, _ =>
    .error (.Lexical "unterminated character literal" ⟨prefix_start, srcLen, file⟩)
  | '\'' :: _, _, _ =>
    .error (.Lexical "empty character literal" ⟨prefix_start, prefix_start + 2, file⟩)
  | c :: rest, off, pos =>
    let content_start := off
    match (if c = '\\' then read_escape srcLen file pos rest (off + 1)
        else .ok (c, rest, off + c.utf8Size)) with
    | .error e => .error e
    | .ok (ch, cs1, off1) =>
      -- verify it is a valid Unicode scalar value (not a surrogate)
      if 0xD800 ≤ ch.toNat ∧ ch.toNat ≤ 0xDFFF then
        .error (.Lexical "character literal contains invalid Unicode surrogate"
          ⟨content_start, pos, file⟩)
      else
        match cs1 with
        | '\'' :: cs2 =>
          let e := match cs2 with
            | [] => srcLen
            | _ => off1 + 1
          .ok ((Token.PrefixedChar pfx ch, e), cs2, off1 + 1)
        | _ => .error (.Lexical "character literal must contain exactly one character"
            ⟨content_start, pos + 1, file⟩)

/-- `Lexer::skip_line_comment`: discard through and including the next
newline (or to end of input). -/
def skip_line_comment : List Char → Nat → List Char × Nat
  | [], off => ([], off)
  | c :: rest, off =>
    if c = '\n' then (rest, off + 1)
    else skip_line_comment rest (off + c.utf8Size)

/-- `Lexer::skip_block_comment`: nesting depth counter; on end of input
the error span is literally `self.span(0, self.source.len())`. -/
def skip_block_comment (srcLen : Nat) (file : String) :
    Nat → List Char → Nat → Except LumeError (List Char × Nat)
  | 0, cs, off => .ok (cs, off)
  | depth + 1, [], _ =>
    .error (.Lexical "unterminated block comment" ⟨0, srcLen, file⟩)
  | depth + 1, '*' :: '/' :: r2, off => skip_block_comment srcLen file depth r2 (off + 2)
  | depth + 1, '*' :: rest, off => skip_block_comment srcLen file (depth + 1) rest (off + 1)
  | depth + 1, '/' :: '*' :: r2, off => skip_block_comment srcLen file (depth + 2) r2 (off + 2)
  | depth + 1, '/' :: rest, off => skip_block_comment srcLen file (depth + 1) rest (off + 1)
  | depth + 1, c :: rest, off => skip_block_comment srcLen file (depth + 1) rest (off + c.utf8Size)

/-- The `while let Some(&(pos, _)) = self.chars.peek() { if pos < end ... }`
loop that advances the iterator past a number literal. -/
def advanceLt (endPos : Nat) : List Char → Nat → List Char × Nat
  | [], off => ([], off)
  | c :: rest, off =>
    if off < endPos then advanceLt endPos rest (off + c.utf8Size)
    else (c :: rest, off)

/-- The last single-character punctuation arms (semicolon, comma, colon,
dot, question mark) and the trailing unexpected-character error of one
`Lexer::lex` iteration.  This and the following definitions are the
`=`-onward dispatch arms of one iteration of `Lexer::lex`, split from
`lexStep` only to keep every `if`-chain a size the elaborator handles;
each ends in a tail call to the next. -/
def lexStepPunct2 (file : String)
    (c : Char) (rest : List Char) (off : Nat) :
    Except LumeError (Option (Token × Span) × List Char × Nat) :=
  if c = ';' then .ok (some (Token.Semicolon, ⟨off, off + 1, file⟩), rest, off + 1)
  else if c = ',' then .ok (some (Token.Comma, ⟨off, off + 1, file⟩), rest, off + 1)
  else if c = ':' then .ok (some (Token.Colon, ⟨off, off + 1, file⟩), rest, off + 1)
  else if c = '.' then .ok (some (Token.Dot, ⟨off, off + 1, file⟩), rest, off + 1)
  else if c = '?' then .ok (some (Token.Question, ⟨off, off + 1, file⟩), rest, off + 1)
  else
    .error (.Lexical ("unexpected character: '" ++ c.toString ++ "'")
      ⟨off, off + c.utf8Size, file⟩)

/-- Bracket arms of one `Lexer::lex` iteration; tail-calls
`lexStepPunct2`. -/
def lexStepPunct (file : String)
    (c : Char) (rest : List Char) (off : Nat) :
    Except LumeError (Option (Token × Span) × List Char × Nat) :=
  if c = '(' then .ok (some (Token.LParen, ⟨off, off + 1, file⟩), rest, off + 1)
  else if c = ')' then .ok (some (Token.RParen, ⟨off, off + 1, file⟩), rest, off + 1)
  else if c = '{' then .ok (some (Token.LBrace, ⟨off, off + 1, file⟩), rest, off + 1)
  else if c = '}' then .ok (some (Token.RBrace, ⟨off, off + 1, file⟩), rest, off + 1)
  else if c = '[' then .ok (some (Token.LBracket, ⟨off, off + 1, file⟩), rest, off + 1)
  else if c = ']' then .ok (some (Token.RBracket, ⟨off, off + 1, file⟩), rest, off + 1)
  else lexStepPunct2 file c rest off

/-- Percent, ampersand, pipe and caret arms of one `Lexer::lex`
iteration; tail-calls `lexStepPunct`. -/
def lexStepOp3 (file : String)
    (c : Char) (rest : List Char) (off : Nat) :
    Except LumeError (Option (Token × Span) × List Char × Nat) :=
  if c = '%' then
    match rest with
    | '=' :: r => .ok (some (Token.PercentEq, ⟨off, off + 2, file⟩), r, off + 2)
    | _ => .ok (some (Token.Percent, ⟨off, off + 1, file⟩), rest, off + 1)
  else if c = '&' then
    match rest with
    | '=' :: r => .ok (some (Token.AmpEq, ⟨off, off + 2, file⟩), r, off + 2)
    | _ => .ok (some (Token.Amp, ⟨off, off + 1, file⟩), rest, off + 1)
  else if c = '|' then
    match rest with
    | '=' :: r => .ok (some (Token.PipeEq, ⟨off, off + 2, file⟩), r, off + 2)
    | _ => .ok (some (Token.Pipe, ⟨off, off + 1, file⟩), rest, off + 1)
  else if c = '^' then
    match rest with
    | '=' :: r => .ok (some (Token.CaretEq, ⟨off, off + 2, file⟩), r, off + 2)
    | _ => .ok (some (Token.Caret, ⟨off, off + 1, file⟩), rest, off + 1)
  else lexStepPunct file c rest off

/-- Plus, minus, star and slash arms (including the comment forms) of
one `Lexer::lex` iteration; tail-calls `lexStepOp3`. -/
def lexStepOp2 (srcLen : Nat) (file : String)
    (c : Char) (rest : List Char) (off : Nat) :
    Except LumeError (Option (Token × Span) × List Char × Nat) :=
  if c = '+' then
    match rest with
    | '=' :: r => .ok (some (Token.PlusEq, ⟨off, off + 2, file⟩), r, off + 2)
    | _ => .ok (some (Token.Plus, ⟨off, off + 1, file⟩), rest, off + 1)
  else if c = '-' then
    match rest with
    | '>' :: r => .ok (some (Token.Arrow, ⟨off, off + 2, file⟩), r, off + 2)
    | '=' :: r => .ok (some (Token.MinusEq, ⟨off, off + 2, file⟩), r, off + 2)
    | _ => .ok (some (Token.Minus, ⟨off, off + 1, file⟩), rest, off + 1)
  else if c = '*' then
    match rest with
    | '=' :: r => .ok (some (Token.StarEq, ⟨off, off + 2, file⟩), r, off + 2)
    | _ => .ok (some (Token.Star, ⟨off, off + 1, file⟩), rest, off + 1)
  else if c = '/' then
    match rest with
    | '/' :: r2 =>
      -- line comment; an optional third '/' (doc comment) is also consumed
      match r2 with
      | '/' :: r3 =>
        match skip_line_comment r3 (off + 3) with
        | (cs1, off1) => .ok (none, cs1, off1)
      | _ =>
        match skip_line_comment r2 (off + 2) with
        | (cs1, off1) => .ok (none, cs1, off1)
    | '*' :: r2 =>
      match skip_block_comment srcLen file 1 r2 (off + 2) with
      | .error e => .error e
      | .ok (cs1, off1) => .ok (none, cs1, off1)
    | '=' :: r => .ok (some (Token.SlashEq, ⟨off, off + 2, file⟩), r, off + 2)
    | _ => .ok (some (Token.Slash, ⟨off, off + 1, file⟩), rest, off + 1)
  else lexStepOp3 file c rest off

/-- Equals, bang, less-than and greater-than arms of one `Lexer::lex`
iteration; tail-calls `lexStepOp2`. -/
def lexStepOp (srcLen : Nat) (file : String)
    (c : Char) (rest : List Char) (off : Nat) :
    Except LumeError (Option (Token × Span) × List Char × Nat) :=
  if c = '=' then
    match rest with
    | '=' :: r => .ok (some (Token.EqEq, ⟨off, off + 2, file⟩), r, off + 2)
    | '>' :: r => .ok (some (Token.FatArrow, ⟨off, off + 2, file⟩), r, off + 2)
    | _ => .ok (some (Token.Eq, ⟨off, off + 1, file⟩), rest, off + 1)
  else if c = '!' then
    -- `if self.peek() == Some('=')`
    if rest.head? = some '=' then
      .ok (some (Token.Neq, ⟨off, off + 2, file⟩), rest.tail, off + 2)
    else
      .error (.Lexical "unexpected '!'; logical NOT is written as 'not'"
        ⟨off, off + 1, file⟩)
  else if c = '<' then
    match rest with
    | '<' :: '=' :: r => .ok (some (Token.ShlEq, ⟨off, off + 3, file⟩), r, off + 3)
    | '<' :: r => .ok (some (Token.Shl, ⟨off, off + 2, file⟩), r, off + 2)
    | '=' :: r => .ok (some (Token.Le, ⟨off, off + 2, file⟩), r, off + 2)
    | _ => .ok (some (Token.Lt, ⟨off, off + 1, file⟩), rest, off + 1)
  else if c = '>' then
    match rest with
    | '>' :: '=' :: r => .ok (some (Token.ShrEq, ⟨off, off + 3, file⟩), r, off + 3)
    | '>' :: r => .ok (some (Token.Shr, ⟨off, off + 2, file⟩), r, off + 2)
    | '=' :: r => .ok (some (Token.Ge, ⟨off, off + 2, file⟩), r, off + 2)
    | _ => .ok (some (Token.Gt, ⟨off, off + 1, file⟩), rest, off + 1)
  else lexStepOp2 srcLen file c rest off

/-- One iteration of the main `Lexer::lex` loop, dispatching on the
consumed character `c` (whose byte offset is `off`; `rest` is the stream
after it).  Returns the pushed token (if any), the remaining stream, and
its offset.  `self.pos` is set to `start` (both equal to `off` here) at
the top of every iteration and is not read across iterations, so both
are inlined as `off`.
`alpha` abstracts Rust's Unicode `char::is_alphabetic` (used only in the
lifetime / char-literal lookahead); on ASCII it equals `Char.isAlpha`. -/
def lexStep (srcLen : Nat) (file : String) (alpha : Char → Bool)
    (c : Char) (rest : List Char) (off : Nat) :
    Except LumeError (Option (Token × Span) × List Char × Nat) :=
  -- skip whitespace characters
  if c = ' ' || c = '\t' || c = '\n' || c = '\r' then
    .ok (none, rest, off + c.utf8Size)
  -- number literal
  else if '0' ≤ c && c ≤ '9' then
    match read_number srcLen file off (c :: rest) with
    | .error e => .error e
    | .ok (tok, endPos) =>
      match advanceLt endPos rest (off + c.utf8Size) with
      | (cs1, off1) => .ok (some (tok, ⟨off, endPos, file⟩), cs1, off1)
  -- identifier / keyword / prefixed literal
  else if ('a' ≤ c && c ≤ 'z') || ('A' ≤ c && c ≤ 'Z') || c = '_' || 0x80 ≤ c.toNat then
    match read_ident c off rest (off + c.utf8Size) with
    | (ident, cs1, off1, pos1) =>
    match cs1 with
    | '"' :: cs2 =>      -- prefixed string, raw mode
      match read_string_content srcLen file false (cs2.length + 1) cs2 (off1 + 1) pos1 with
      | .error e => .error e
      | .ok (content, endPos, cs3, off3) =>
        .ok (some (Token.PrefixedStr ident content, ⟨off, endPos, file⟩), cs3, off3)
    | '\'' :: cs2 =>     -- prefixed character literal
      match read_prefixed_char srcLen file ident off cs2 (off1 + 1) pos1 with
      | .error e => .error e
      | .ok ((tok, endPos), cs3, off3) =>
        .ok (some (tok, ⟨off, endPos, file⟩), cs3, off3)
    | _ =>
      .ok (some (keyword_or_ident ident, ⟨off, pos1, file⟩), cs1, off1)
  -- string literal
  else if c = '"' then
    match read_string_content srcLen file true (rest.length + 1) rest (off + 1) off with
    | .error e => .error e
    | .ok (content, endPos, cs1, off1) =>
      .ok (some (Token.Str content, ⟨off, endPos, file⟩), cs1, off1)
  -- character literal or lifetime
  else if c = '\'' then
    match rest with
    | [] => .error (.Lexical "unexpected end of input after quote" ⟨off, off + 1, file⟩)
    | f :: rest2 =>
      if alpha f || f = '_' then
        match rest2 with
        | '\'' :: _ =>   -- character literal like 'a'
          match read_char_literal srcLen file off rest (off + 1) off with
          | .error e => .error e
          | .ok (tok, cs1, off1, pos1) =>
            .ok (some (tok, ⟨off, pos1, file⟩), cs1, off1)
        | _ :: _ =>      -- lifetime like 'static
          match read_ident f (off + 1) rest2 (off + 1 + f.utf8Size) with
          | (ident, cs1, off1, pos1) =>
            .ok (some (Token.Lifetime ident, ⟨off, pos1, file⟩), cs1, off1)
        | [] => .error (.Lexical "unexpected end of input after quote" ⟨off, off + 1, file⟩)
      else               -- character literal like '5', '\n'
        match read_char_literal srcLen file off rest (off + 1) off with
        | .error e => .error e
        | .ok (tok, cs1, off1, pos1) =>
          .ok (some (tok, ⟨off, pos1, file⟩), cs1, off1)
  else lexStepOp srcLen file c rest off

/-- The main `Lexer::lex` loop: one fuel unit per iteration; on stream
exhaustion the `Eof` token with the empty span at `source.len()` is
appended. -/
def lexLoop (srcLen : Nat) (file : String) (alpha : Char → Bool) :
    Nat → List Char → Nat → List (Token × Span) → Except LumeError (List (Token × Span))
  | _, [], _, acc => .ok (acc ++ [(Token.Eof, ⟨srcLen, srcLen, file⟩)])
  | 0, _ :: _, _, _ => .error (.Lexical "internal: fuel exhausted" ⟨0, 0, ""⟩)
  | fuel + 1, c :: rest, off, acc =>
    match lexStep srcLen file alpha c rest off with
    | .error e => .error e
    | .ok (otok, cs1, off1) => lexLoop srcLen file alpha fuel cs1 off1 (acc ++ otok.toList)

/-- `lex(source, file)`, parametric in the `is_alphabetic` oracle. -/
def lexWith (alpha : Char → Bool) (source : String) (file : String) :
    Except LumeError (List (Token × Span)) :=
  let src := stripShebang source.data
  lexLoop (utf8Len src) file alpha (src.length + 1) src 0 []

/-- The public entry `lex`.  `Char.isAlpha` agrees with Rust's
`char::is_alphabetic` on every ASCII character; all concrete sources used
in the theorems below are ASCII, and the universally quantified theorems
are stated for an arbitrary `alpha`. -/
def lex (source : String) (file : String) : Except LumeError (List (Token × Span)) :=
  lexWith Char.isAlpha source file

/-- Mathematical decimal text of a natural number (most significant digit
first); `Nat.digits` is little-endian, hence the reverse. -/
def natDecRepr (n : Nat) : String :=
  if n = 0 then "0"
  else String.mk ((Nat.digits 10 n).reverse.map (fun d => Char.ofNat (48 + d)))

/-- The decimal text representation of an `i64` value (`i64`'s `Display`):
an optional minus sign followed by the decimal digits of the magnitude. -/
def i64ToString (v : Int) : String :=
  if v < 0 then "-" ++ natDecRepr v.natAbs else natDecRepr v.toNat

/-- Recognizer for the end-of-stream marker. -/
def isEof : Token → Bool
  | Token.Eof => true
  | _ => false

/-- Invariant satisfied by every error the lexer can produce: an
`unterminated block comment` error always carries the span
`(0, source.len())`, and the surrogate message inside
`read_prefixed_char` is never produced (its guard is unsatisfiable for a
decoded Unicode scalar value). -/
def ErrorInv (srcLen : Nat) (file : String) : LumeError → Prop
  | .Lexical msg sp =>
      (msg = "unterminated block comment" → sp = ⟨0, srcLen, file⟩) ∧
      msg ≠ "character literal contains invalid Unicode surrogate"
  | _ => True

/-! ## Basic unfolding lemmas for the main loop -/

theorem lexLoop_nil (L : Nat) (F : String) (A : Char → Bool) (fuel off : Nat)
    (acc : List (Token × Span)) :
    lexLoop L F A fuel [] off acc = .ok (acc ++ [(Token.Eof, ⟨L, L, F⟩)]) := by
  cases fuel <;> rfl

theorem lexLoop_cons_ok {L : Nat} {F : String} {A : Char → Bool} {c : Char}
    {rest : List Char} {off : Nat} {ot : Option (Token × Span)} {cs1 : List Char} {off1 : Nat}
    (fuel : Nat) (acc : List (Token × Span))
    (h : lexStep L F A c rest off = .ok (ot, cs1, off1)) :
    lexLoop L F A (fuel + 1) (c :: rest) off acc =
      lexLoop L F A fuel cs1 off1 (acc ++ ot.toList) := by
  simp only [lexLoop, h]

theorem lexLoop_cons_err {L : Nat} {F : String} {A : Char → Bool} {c : Char}
    {rest : List Char} {off : Nat} {e : LumeError} (fuel : Nat) (acc : List (Token × Span))
    (h : lexStep L F A c rest off = .error e) :
    lexLoop L F A (fuel + 1) (c :: rest) off acc = .error e := by
  simp only [lexLoop, h]

/-! ## C3: base prefix versus float detection -/

/-- C3 (counterexample): scanning `0b10.5` does **not** yield an integer
token for the prefixed digits with the `.5` left over — the scan of the
whole source fails, because `read_number` falls through to the
fractional-part check even when a base prefix was consumed. -/
theorem C3_counterexample : ¬ ∃ toks, lex "0b10.5" "f" = Except.ok toks := by
  rintro ⟨toks, h⟩
  rw [show lex "0b10.5" "f" =
      Except.error (.Lexical "invalid float literal" ⟨0, 6, "f"⟩) by rfl] at h
  exact Except.noConfusion h

/-- C3 (amended): after a base-prefixed digit run the number scanner does
attempt a fractional part and an exponent part; since the cleaned text
still contains the prefix, the `f64` parse fails, so `0b10.5` and `0b1e1`
are rejected with `invalid float literal` covering the combined text. -/
theorem C3_amended :
    lex "0b10.5" "f" = Except.error (.Lexical "invalid float literal" ⟨0, 6, "f"⟩) ∧
    lex "0b1e1" "f" = Except.error (.Lexical "invalid float literal" ⟨0, 5, "f"⟩) :=
  ⟨by rfl, by rfl⟩

/-! ## C7: escape decoding at the public interface -/

/-- C7: `"\n"` (four source characters) yields a string token holding one
newline; `'\u{1F600}'` yields a character token holding exactly U+1F600;
`'\u{D800}'` is rejected (surrogate); zero and more than six hex digits
are likewise rejected. -/
theorem C7_escape_decoding :
    lex "\"\\n\"" "f" =
      Except.ok [(Token.Str "\n", ⟨0, 2, "f"⟩), (Token.Eof, ⟨4, 4, "f"⟩)] ∧
    lex "'\\u\x7b1F600\x7d'" "f" =
      Except.ok [(Token.Char (Char.ofNat 0x1F600), ⟨0, 11, "f"⟩), (Token.Eof, ⟨11, 11, "f"⟩)] ∧
    lex "'\\u\x7bD800\x7d'" "f" =
      Except.error (.Lexical "invalid unicode codepoint" ⟨0, 1, "f"⟩) ∧
    lex "'\\u\x7b\x7d'" "f" =
      Except.error (.Lexical "unicode escape must have 1-6 hex digits" ⟨0, 1, "f"⟩) ∧
    lex "'\\u\x7b1234567\x7d'" "f" =
      Except.error (.Lexical "unicode escape must have 1-6 hex digits" ⟨0, 1, "f"⟩) :=
  ⟨by rfl, by rfl, by rfl, by rfl, by rfl⟩

/-! ## C8: nested block comments are transparent -/

/-- C8: `/* a /* b */ c */ let x = 1;` produces the same token stream as
`let x = 1;` — the nested block comment is consumed as one unit and emits
nothing. -/
theorem C8_comment_transparency :
    (lex "/* a /* b */ c */ let x = 1;" "f").map (List.map Prod.fst) =
      Except.ok [Token.Let, Token.Ident "x", Token.Eq, Token.Int 1,
        Token.Semicolon, Token.Eof] ∧
    (lex "let x = 1;" "f").map (List.map Prod.fst) =
      Except.ok [Token.Let, Token.Ident "x", Token.Eq, Token.Int 1,
        Token.Semicolon, Token.Eof] :=
  ⟨by rfl, by rfl⟩

/-! ## C6: the standalone `!` -/

/-- C6 (counterexample to the stated "if and only if"): `$` contains no
`!` at all, yet `lex` fails with a lexical error. -/
theorem C6_counterexample :
    lex "$" "f" = Except.error (.Lexical "unexpected character: '$'" ⟨0, 1, "f"⟩) ∧
    '!' ∉ "$".data :=
  ⟨by rfl, by decide⟩

/-! ## C5: unterminated block comment span -/

/-- C5 (counterexample): in `a /*` the unterminated block comment begins
at byte offset 2, but the reported span starts at 0 — the source code
hard-codes `self.span(0, self.source.len())`. -/
theorem C5_counterexample :
    lex "a /*" "f" =
      Except.error (.Lexical "unterminated block comment" ⟨0, 4, "f"⟩) ∧
    (0 : Nat) ≠ 2 :=
  ⟨by rfl, by decide⟩

/-! ## C4: decimal `i64` round-trip -/

/-- C4 (counterexample): for `v = -1` the decimal text is `-1`, whose
first token is `Minus`, not `Int (-1)` — the minus sign is an operator
token, so the round-trip fails for every negative value. -/
theorem C4_counterexample :
    i64ToString (-1) = "-1" ∧
    lex "-1" "f" = Except.ok [(Token.Minus, ⟨0, 1, "f"⟩), (Token.Int 1, ⟨1, 2, "f"⟩),
      (Token.Eof, ⟨2, 2, "f"⟩)] ∧
    ∀ sp rest, lex (i64ToString (-1)) "f" ≠ Except.ok ((Token.Int (-1), sp) :: rest) := by
  have hrepr : i64ToString (-1) = "-1" := by
    rw [i64ToString, if_pos (by norm_num), natDecRepr]
    norm_num
    rfl
  refine ⟨hrepr, by rfl, ?_⟩
  intro sp rest h
  rw [hrepr] at h
  rw [show lex "-1" "f" = Except.ok [(Token.Minus, ⟨0, 1, "f"⟩), (Token.Int 1, ⟨1, 2, "f"⟩),
      (Token.Eof, ⟨2, 2, "f"⟩)] by rfl] at h
  simp only [Except.ok.injEq, List.cons.injEq, Prod.mk.injEq] at h
  exact Token.noConfusion h.1.1

/-! ## Generic facts about characters and streams -/

theorem utf8Size_eq_one {c : Char} (h : c.toNat < 0x80) : c.utf8Size = 1 := by
  have hle : c.val ≤ UInt32.ofNatCore 0x7F (by decide) := by
    rw [UInt32.le_def, BitVec.le_def]
    exact Nat.lt_succ_iff.mp h
  simp only [Char.utf8Size]
  rw [if_pos hle]

/-- C6 (amended): whenever the post-shebang source begins with `!` not
followed by `=`, the scan fails with the lexical error naming the keyword
spelling of logical NOT; and `a != b` lexes to `Ident Neq Ident Eof`.
(The claim's "if and only if" over arbitrary inputs is refuted by
`C6_counterexample`.) -/
theorem C6_bang_rejection :
    (∀ (alpha : Char → Bool) (file src : String) (rest : List Char),
      src.data = '!' :: rest → rest.head? ≠ some '=' →
      lexWith alpha src file =
        Except.error (.Lexical "unexpected '!'; logical NOT is written as 'not'"
          ⟨0, 1, file⟩)) ∧
    lex "a != b" "f" = Except.ok [(Token.Ident "a", ⟨0, 1, "f"⟩), (Token.Neq, ⟨2, 4, "f"⟩),
      (Token.Ident "b", ⟨5, 6, "f"⟩), (Token.Eof, ⟨6, 6, "f"⟩)] := by
  constructor
  · intro alpha file src rest hsrc hne
    have hstrip : stripShebang ('!' :: rest) = '!' :: rest := by
      unfold stripShebang
      rw [if_neg]
      intro hcontra
      cases rest <;> simp_all
    have hstep : lexStep (utf8Len ('!' :: rest)) file alpha '!' rest 0 =
        Except.error (.Lexical "unexpected '!'; logical NOT is written as 'not'"
          ⟨0, 1, file⟩) := by
      simp only [lexStep, lexStepOp]
      rw [if_neg hne]
      rfl
    show lexWith alpha src file = _
    simp only [lexWith, hsrc, hstrip, List.length_cons]
    exact lexLoop_cons_err (rest.length + 1) [] hstep
  · rfl

/-- C6 witness: the theorem applied at the concrete source `!a`. -/
theorem C6_witness : lexWith Char.isAlpha "!a" "f" =
    Except.error (.Lexical "unexpected '!'; logical NOT is written as 'not'" ⟨0, 1, "f"⟩) :=
  C6_bang_rejection.1 Char.isAlpha "f" "!a" ['a'] (by rfl) (by decide)

theorem utf8Len_append (l1 l2 : List Char) :
    utf8Len (l1 ++ l2) = utf8Len l1 + utf8Len l2 := by
  induction l1 with
  | nil => simp [utf8Len]
  | cons c cs ih => simp [utf8Len, ih]; omega

theorem utf8Len_ascii {l : List Char} (h : ∀ c ∈ l, c.toNat < 0x80) :
    utf8Len l = l.length := by
  induction l with
  | nil => rfl
  | cons c cs ih =>
    have h1 := h c (by simp)
    simp [utf8Len, utf8Size_eq_one h1, ih (fun x hx => h x (by simp [hx])), Nat.add_comm]

theorem stripShebang_cons_ne {c : Char} (l : List Char) (h : c ≠ '#') :
    stripShebang (c :: l) = c :: l := by
  unfold stripShebang
  rw [if_neg]
  intro hcontra
  cases l <;> simp_all

/-! ## C9: plain string literal span -/

/-- Running the string-content loop over escape-free single-byte content:
it consumes the content and the closing quote, the returned `end` being
the byte offset of the closing quote itself. -/
theorem read_string_content_go_append (L : Nat) (F : String) (sp : Nat)
    (content : List Char) :
    ∀ (fuel : Nat) (s : String) (tail : List Char) (off pos : Nat),
      (∀ c ∈ content, c ≠ '"' ∧ c ≠ '\\' ∧ c.toNat < 0x80) →
      content.length < fuel → pos + 1 = off →
      read_string_content_go L F true sp fuel s (content ++ '"' :: tail) off pos =
        .ok (⟨s.data ++ content⟩, off + content.length, tail, off + content.length + 1) := by
  induction content with
  | nil =>
    intro fuel s tail off pos _ hf hp
    match fuel with
    | fuel + 1 =>
      simp only [List.nil_append, read_string_content_go, if_pos rfl]
      simp [← hp]
  | cons c cs ih =>
    intro fuel s tail off pos hc hf hp
    obtain ⟨hq, hb, ha⟩ := hc c (by simp)
    match fuel with
    | fuel + 1 =>
      simp only [List.cons_append, read_string_content_go]
      rw [if_neg hq, if_neg (by simp [hb]), utf8Size_eq_one ha]
      show read_string_content_go L F true sp fuel (s.push c) (cs ++ '"' :: tail)
        (off + 1) off = _
      rw [ih fuel (s.push c) tail (off + 1) off
        (fun x hx => hc x (by simp [hx])) (by simpa using hf) rfl]
      simp [String.data_push]
      omega

/-- C9: a plain string literal whose content is ASCII with no escapes is
emitted with span `(q, c)` where `q` is the opening-quote and `c` the
closing-quote byte offset — the closing quote lies outside the span.
(Scanning the two-byte source `""` is the `content = []` instance, the
witness below.) -/
theorem C9_plain_string_span (alpha : Char → Bool) (file : String) (content : List Char)
    (h : ∀ c ∈ content, c ≠ '"' ∧ c ≠ '\\' ∧ c.toNat < 0x80) :
    lexWith alpha (String.mk ('"' :: content ++ ['"'])) file =
      Except.ok [(Token.Str (String.mk content), ⟨0, 1 + content.length, file⟩),
        (Token.Eof, ⟨content.length + 2, content.length + 2, file⟩)] := by
  have hlen : utf8Len content = content.length := utf8Len_ascii (fun c hc => (h c hc).2.2)
  have hsrcLen : utf8Len ('"' :: (content ++ ['"'])) = content.length + 2 := by
    have hq : ('"' : Char).utf8Size = 1 := by decide
    simp [utf8Len, utf8Len_append, hlen, hq]
    omega
  have hstep : lexStep (content.length + 2) file alpha '"' (content ++ ['"']) 0 =
      .ok (some (Token.Str ⟨content⟩, ⟨0, 1 + content.length, file⟩),
        [], content.length + 2) := by
    simp only [lexStep]
    rw [read_string_content]
    rw [show content ++ ['"'] = content ++ '"' :: [] from rfl]
    rw [read_string_content_go_append (content.length + 2) file 0 content
      ((content ++ ['"']).length + 1) "" [] 1 0 h
      (by simp only [List.length_append, List.length_cons, List.length_nil]; omega) rfl]
    simp
    omega
  show lexWith alpha _ file = _
  simp only [lexWith, List.cons_append]
  rw [stripShebang_cons_ne (c := '"') (content ++ ['"']) (by decide), hsrcLen]
  rw [show ('"' :: (content ++ ['"'])).length + 1 = (content.length + 2) + 1 from by simp]
  rw [lexLoop_cons_ok (content.length + 2) [] hstep]
  rw [lexLoop_nil]
  simp

/-- C9 witness: the two-byte source `""` produces `Str ""` with span
`(0, 1)` — not `(0, 2)`. -/
theorem C9_witness :
    lexWith Char.isAlpha (String.mk ('"' :: [] ++ ['"'])) "f" =
      Except.ok [(Token.Str (String.mk []), ⟨0, 1 + List.length ([] : List Char), "f"⟩),
        (Token.Eof, ⟨List.length ([] : List Char) + 2, List.length ([] : List Char) + 2, "f"⟩)] :=
  C9_plain_string_span Char.isAlpha "f" [] (by simp)

/-! ## Digit characters -/

theorem char_le_iff {a b : Char} : a ≤ b ↔ a.toNat ≤ b.toNat := Iff.rfl

theorem char_ne_of_toNat_ne {c d : Char} (h : c.toNat ≠ d.toNat) : c ≠ d :=
  fun he => h (he ▸ rfl)

theorem isDigit_iff {c : Char} : c.isDigit = true ↔ 48 ≤ c.toNat ∧ c.toNat ≤ 57 := by
  simp only [Char.isDigit, Bool.and_eq_true, decide_eq_true_eq, ge_iff_le]
  constructor
  · rintro ⟨h1, h2⟩
    exact ⟨UInt32.le_toNat_of_le (by norm_num [UInt32.size]) h1,
      UInt32.toNat_le_of_le (by norm_num [UInt32.size]) h2⟩
  · rintro ⟨h1, h2⟩
    rw [UInt32.le_def, BitVec.le_def, UInt32.le_def, BitVec.le_def]
    exact ⟨h1, h2⟩

theorem toNat_ofNat_valid {n : Nat} (h : n < 0xD800) : (Char.ofNat n).toNat = n := by
  rw [Char.ofNat, dif_pos (Or.inl h)]
  rfl

/-- The facts about any decimal-digit character that drive `read_number`
through its plain base-10 path. -/
theorem digit_char_props {c : Char} (h : c.isDigit = true) :
    c ≠ '_' ∧ c ≠ '.' ∧ c ≠ '#' ∧
    (c = 'x' ∨ c = 'X') = False ∧ (c = 'b' ∨ c = 'B') = False ∧
    (c = 'o' ∨ c = 'O') = False ∧
    (c = ' ' || c = '\t' || c = '\n' || c = '\r') = false ∧
    ('0' ≤ c && c ≤ '9') = true ∧
    c.toNat < 0x80 ∧ c.utf8Size = 1 ∧
    digitVal c = some (c.toNat - 48) := by
  obtain ⟨h1, h2⟩ := isDigit_iff.mp h
  refine ⟨char_ne_of_toNat_ne (by change _ ≠ 95; omega),
    char_ne_of_toNat_ne (by change _ ≠ 46; omega),
    char_ne_of_toNat_ne (by change _ ≠ 35; omega), ?_, ?_, ?_, ?_, ?_, by omega, ?_, ?_⟩
  · simp only [eq_iff_iff, iff_false]
    rintro (he | he) <;> subst he <;> exact absurd h2 (by decide)
  · simp only [eq_iff_iff, iff_false]
    rintro (he | he) <;> subst he <;> exact absurd h2 (by decide)
  · simp only [eq_iff_iff, iff_false]
    rintro (he | he) <;> subst he <;> exact absurd h2 (by decide)
  · have hsp : c ≠ ' ' := char_ne_of_toNat_ne (by change _ ≠ 32; omega)
    have hta : c ≠ '\t' := char_ne_of_toNat_ne (by change _ ≠ 9; omega)
    have hnl : c ≠ '\n' := char_ne_of_toNat_ne (by change _ ≠ 10; omega)
    have hcr : c ≠ '\r' := char_ne_of_toNat_ne (by change _ ≠ 13; omega)
    simp [hsp, hta, hnl, hcr]
  · have hl : '0' ≤ c := char_le_iff.mpr (by change 48 ≤ _; omega)
    have hr : c ≤ '9' := char_le_iff.mpr (by change _ ≤ 57; omega)
    simp [hl, hr]
  · exact utf8Size_eq_one (by omega)
  · rw [digitVal, if_pos h]

/-- `takeRun` consumes an entire run of matching non-underscore
characters. -/
theorem takeRun_all (pred : Char → Bool) (l : List Char)
    (h : ∀ c ∈ l, c ≠ '_' ∧ pred c = true) :
    takeRun pred l = (l, !l.isEmpty, []) := by
  induction l with
  | nil => rfl
  | cons c t ih =>
    obtain ⟨h1, h2⟩ := h c (by simp)
    rw [takeRun, if_neg h1, if_pos h2, ih (fun x hx => h x (by simp [hx]))]
    simp

/-- `advanceLt` drains a block of one-byte characters whose offsets all
lie below the target. -/
theorem advanceLt_all (e : Nat) (l : List Char) :
    ∀ off, (∀ c ∈ l, c.utf8Size = 1) → off + l.length ≤ e →
      advanceLt e l off = ([], off + l.length) := by
  induction l with
  | nil => intro off _ _; rfl
  | cons c t ih =>
    intro off h hle
    rw [advanceLt, if_pos (by simp at hle; omega), h c (by simp),
      ih (off + 1) (fun x hx => h x (by simp [hx])) (by simp at hle ⊢; omega)]
    simp
    omega

/-! ## The radix parser on reversed decimal digits -/

theorem foldl_radixStep_digits (L : List Nat) (hL : ∀ d ∈ L, d < 10) :
    ∀ acc : Nat,
      List.foldl (radixStep 10) (some acc) (L.reverse.map (fun d => Char.ofNat (48 + d))) =
        some (acc * 10 ^ L.length + Nat.ofDigits 10 L) := by
  induction L with
  | nil => intro acc; simp [Nat.ofDigits_nil]
  | cons d t ih =>
    intro acc
    have hd : d < 10 := hL d (by simp)
    have hdv : digitVal (Char.ofNat (48 + d)) = some d := by
      have hv : (Char.ofNat (48 + d)).toNat = 48 + d := toNat_ofNat_valid (by omega)
      rw [digitVal, if_pos (isDigit_iff.mpr (by omega)), hv]
      simp
    simp only [List.reverse_cons, List.map_append, List.map_cons, List.map_nil,
      List.foldl_append, List.foldl_cons, List.foldl_nil]
    rw [ih (fun x hx => hL x (by simp [hx])) acc]
    simp only [radixStep, Option.bind_eq_bind, Option.some_bind, hdv, if_pos hd]
    rw [Nat.ofDigits_cons]
    simp only [List.length_cons, pow_succ]
    ring

theorem parseRadixNat_decimal {n : Nat} :
    parseRadixNat 10 ((Nat.digits 10 n).reverse.map (fun d => Char.ofNat (48 + d))) =
      some n := by
  rw [parseRadixNat,
    foldl_radixStep_digits (Nat.digits 10 n) (fun d hd => Nat.digits_lt_base (by norm_num) hd) 0]
  simp [Nat.ofDigits_digits]

/-! ## `read_number` on a pure decimal digit string -/

/-- The prefix analysis of `read_number` on a non-empty all-digit input:
whether or not the leading digit is `0`, the result is the full run in
base 10. -/
theorem read_number_prefix_digits (ds : List Char)
    (h : ∀ c ∈ ds, c.isDigit = true) (hne : ds ≠ []) :
    read_number_prefix ds = (10, ds, ds.length, []) := by
  have hall : ∀ c ∈ ds, c ≠ '_' ∧ Char.isDigit c = true :=
    fun c hc => ⟨(digit_char_props (h c hc)).1, h c hc⟩
  match ds, hne with
  | d0 :: tl, _ =>
  match tl with
  | [] =>
    simp only [ read_number_prefix]
    rw [takeRun_all _ _ hall]
  | c1 :: tl' =>
    have hc1 := digit_char_props (h c1 (by simp))
    by_cases hd0 : d0 = '0'
    · subst hd0
      have hrun1 : takeRun Char.isDigit (c1 :: tl') = (c1 :: tl', !(c1 :: tl').isEmpty, []) :=
        takeRun_all _ _ (fun x hx => hall x (by simp [hx]))
      simp only [ read_number_prefix]
      rw [if_neg (by simp [show (c1 = 'x' ∨ c1 = 'X') = False from hc1.2.2.2.1]),
        if_neg (by simp [show (c1 = 'b' ∨ c1 = 'B') = False from hc1.2.2.2.2.1]),
        if_neg (by simp [show (c1 = 'o' ∨ c1 = 'O') = False from hc1.2.2.2.2.2.1]),
        hrun1]
      simp
      omega
    · simp only [ read_number_prefix]
      split
      · rename_i heq
        simp only [List.cons.injEq] at heq
        exact absurd heq.1 hd0
      · rw [takeRun_all _ _ hall]

/-- `read_number` on a non-empty all-digit input: the whole run is
consumed in base 10 and handed to `i64_from_radix`. -/
theorem read_number_digits (L : Nat) (F : String) (ds : List Char) (v : Int)
    (h : ∀ c ∈ ds, c.isDigit = true) (hne : ds ≠ [])
    (hparse : i64_from_radix ds 10 = .ok v) :
    read_number L F 0 ds = .ok (Token.Int v, ds.length) := by
  have hall : ∀ c ∈ ds, c ≠ '_' ∧ Char.isDigit c = true :=
    fun c hc => ⟨(digit_char_props (h c hc)).1, h c hc⟩
  have hrun : takeRun Char.isDigit ds = (ds, !ds.isEmpty, []) := takeRun_all _ _ hall
  have hfilter : ds.filter (fun c => c ≠ '_') = ds :=
    List.filter_eq_self.mpr (fun c hc => by simp [(digit_char_props (h c hc)).1])
  have hpre : read_number_prefix ds = (10, ds, ds.length, []) :=
    read_number_prefix_digits ds h hne
  have hch : ∀ c ∈ ds, c ≠ '.' := fun c hc => (digit_char_props (h c hc)).2.1
  match ds, hne with
  | d0 :: tl, _ =>
  have hd0 := digit_char_props (h d0 (by simp))
  have h1 : (d0 :: tl).isEmpty = false := by simp
  have h2 : d0 :: tl ≠ ['.'] := by
    intro he
    exact hch '.' (he ▸ (by simp : '.' ∈ ['.'])) rfl
  have h3 : (d0 :: tl).head? ≠ some '.' := by
    intro he
    rw [List.head?_cons] at he
    exact hd0.2.1 (Option.some.inj he)
  have h4 : (d0 :: tl).getLast? ≠ some '.' := by
    intro he
    exact hch _ (List.mem_of_mem_getLast? he) rfl
  have hfilter2 : List.filter (fun c => !decide (c = '_')) (d0 :: tl) = d0 :: tl := by
    rw [List.filter_eq_self]
    intro c hc
    simp [(digit_char_props (h c hc)).1]
  rw [read_number]
  simp only [hpre]
  simp [read_number_dot, read_number_exp, takeRun, hfilter, hfilter2, hparse, h1, h2, h3, h4]
  all_goals exact hd0.2.1

/-- Scanning a source that is exactly one non-empty decimal digit run:
one `Int` token covering the whole text, then `Eof`. -/
theorem lex_digits (alpha : Char → Bool) (file : String) (ds : List Char) (v : Int)
    (hdig : ∀ c ∈ ds, c.isDigit = true) (hne : ds ≠ [])
    (hparse : i64_from_radix ds 10 = .ok v) :
    lexWith alpha (String.mk ds) file =
      Except.ok [(Token.Int v, ⟨0, ds.length, file⟩),
        (Token.Eof, ⟨ds.length, ds.length, file⟩)] := by
  match ds, hne with
  | d0 :: tl, _ =>
  have hd0 := digit_char_props (hdig d0 (by simp))
  have hsz : ∀ c ∈ d0 :: tl, c.utf8Size = 1 :=
    fun c hc => (digit_char_props (hdig c hc)).2.2.2.2.2.2.2.2.2.1
  have hulen : utf8Len (d0 :: tl) = (d0 :: tl).length :=
    utf8Len_ascii (fun c hc => (digit_char_props (hdig c hc)).2.2.2.2.2.2.2.2.1)
  have hstep : lexStep ((d0 :: tl).length) file alpha d0 tl 0 =
      .ok (some (Token.Int v, ⟨0, (d0 :: tl).length, file⟩), [], (d0 :: tl).length) := by
    simp only [lexStep]
    rw [if_neg (by simp [hd0.2.2.2.2.2.2.1]), if_pos (by simp [hd0.2.2.2.2.2.2.2.1])]
    rw [read_number_digits _ _ _ v hdig (by simp) hparse]
    show Except.ok _ = _
    rw [hd0.2.2.2.2.2.2.2.2.2.1]
    rw [advanceLt_all ((d0 :: tl).length) tl (0 + 1)
      (fun c hc => hsz c (by simp [hc])) (by simp; omega)]
    simp
    omega
  show lexWith alpha _ file = _
  simp only [lexWith]
  rw [stripShebang_cons_ne (c := d0) tl hd0.2.2.1, hulen]
  rw [show (d0 :: tl).length + 1 = tl.length + 1 + 1 from by simp]
  rw [lexLoop_cons_ok (tl.length + 1) []
    (by rw [show (d0 :: tl).length = tl.length + 1 from by simp] at hstep; exact hstep)]
  rw [lexLoop_nil]
  simp

/-- C4 (amended): for every non-negative `i64` value, scanning its
decimal text yields exactly `Int v` (spanning the whole text) and `Eof`.
For negative values see `C4_counterexample`: the minus sign lexes as a
separate `Minus` token. -/
theorem C4_int_roundtrip (alpha : Char → Bool) (file : String) (v : Int)
    (h0 : 0 ≤ v) (h1 : v < 2 ^ 63) :
    lexWith alpha (i64ToString v) file =
      Except.ok [(Token.Int v, ⟨0, (i64ToString v).length, file⟩),
        (Token.Eof, ⟨(i64ToString v).length, (i64ToString v).length, file⟩)] := by
  have hneg : ¬ v < 0 := by omega
  rw [i64ToString, if_neg hneg]
  have hvn : v = Int.ofNat v.toNat := (Int.toNat_of_nonneg h0).symm
  by_cases hz : v.toNat = 0
  · rw [natDecRepr, if_pos hz]
    rw [show v = 0 from by omega]
    rfl
  · rw [natDecRepr, if_neg hz]
    have hd10 : ∀ d ∈ Nat.digits 10 v.toNat, d < 10 :=
      fun d hd => Nat.digits_lt_base (by norm_num) hd
    have hdig : ∀ c ∈ (Nat.digits 10 v.toNat).reverse.map (fun d => Char.ofNat (48 + d)),
        c.isDigit = true := by
      intro c hc
      simp only [List.mem_map, List.mem_reverse] at hc
      obtain ⟨d, hd, rfl⟩ := hc
      have hlt : d < 10 := hd10 d hd
      exact isDigit_iff.mpr (by rw [toNat_ofNat_valid (by omega)]; omega)
    have hne : (Nat.digits 10 v.toNat).reverse.map (fun d => Char.ofNat (48 + d)) ≠ [] := by
      simp
      exact Nat.digits_ne_nil_iff_ne_zero.mpr hz
    have hnlt : v.toNat ≤ 2 ^ 63 - 1 := by omega
    have hparse : i64_from_radix
        ((Nat.digits 10 v.toNat).reverse.map (fun d => Char.ofNat (48 + d))) 10 =
        .ok (Int.ofNat v.toNat) := by
      rw [i64_from_radix, if_neg (by simpa using hne)]
      rw [parseRadixNat_decimal]
      simp
      omega
    have := lex_digits alpha file _ (Int.ofNat v.toNat) hdig hne hparse
    rw [← hvn] at this
    rw [this]
    simp [String.length]

/-- C4 witness: the round-trip theorem applied at `v = 42`. -/
theorem C4_witness :
    lexWith Char.isAlpha (i64ToString 42) "f" =
      Except.ok [(Token.Int 42, ⟨0, (i64ToString 42).length, "f"⟩),
        (Token.Eof, ⟨(i64ToString 42).length, (i64ToString 42).length, "f"⟩)] :=
  C4_int_roundtrip Char.isAlpha "f" 42 (by norm_num) (by norm_num)

/-! ## Stream coherence: every consumer moves the offset forward and
preserves `offset + utf8Len remaining` -/

theorem char_not_surrogate (c : Char) : ¬(0xD800 ≤ c.toNat ∧ c.toNat ≤ 0xDFFF) := by
  intro ⟨ha, hb⟩
  simp only [Char.toNat] at ha hb
  have h : c.val.toNat < 0xd800 ∨ (0xdfff < c.val.toNat ∧ c.val.toNat < 0x110000) := c.valid
  rcases h with h | ⟨h1, h2⟩ <;> omega

theorem advanceLt_stream (e : Nat) :
    ∀ (cs : List Char) (off : Nat),
      off ≤ (advanceLt e cs off).2 ∧
      (advanceLt e cs off).2 + utf8Len (advanceLt e cs off).1 = off + utf8Len cs := by
  intro cs
  induction cs with
  | nil => intro off; simp [advanceLt]
  | cons c rest ih =>
    intro off
    rw [advanceLt]
    split
    · have := ih (off + c.utf8Size)
      refine ⟨by omega, ?_⟩
      rw [this.2, utf8Len]
      omega
    · simp

theorem skip_line_comment_stream :
    ∀ (cs : List Char) (off : Nat),
      off ≤ (skip_line_comment cs off).2 ∧
      (skip_line_comment cs off).2 + utf8Len (skip_line_comment cs off).1 = off + utf8Len cs := by
  intro cs
  induction cs with
  | nil => intro off; simp [skip_line_comment]
  | cons c rest ih =>
    intro off
    rw [skip_line_comment]
    split
    · simp [utf8Len]
      rename_i hc
      subst hc
      have hone : ('\n' : Char).utf8Size = 1 := by decide
      omega
    · have := ih (off + c.utf8Size)
      refine ⟨by omega, ?_⟩
      rw [this.2, utf8Len]
      omega

theorem skip_block_comment_stream (L : Nat) (F : String) :
    ∀ (n : Nat) (cs : List Char), cs.length ≤ n →
      ∀ (depth off : Nat) (cs' : List Char) (off' : Nat),
        skip_block_comment L F depth cs off = .ok (cs', off') →
        off ≤ off' ∧ off' + utf8Len cs' = off + utf8Len cs := by
  intro n
  induction n with
  | zero =>
    intro cs hl depth off cs' off' h
    have : cs = [] := List.length_eq_zero.mp (by omega)
    subst this
    rw [skip_block_comment.eq_def] at h
    split at h
    · injection h with h
      injection h with h1 h2
      subst h1; subst h2
      omega
    · cases h
    all_goals simp_all
  | succ n ih =>
    intro cs hl depth off cs' off' h
    rw [skip_block_comment.eq_def] at h
    split at h
    · injection h with h
      injection h with h1 h2
      subst h1; subst h2
      omega
    · cases h
    · rename_i d r2
      have := ih r2 (by simp at hl; omega) d (off + 2) cs' off' h
      have hs : ('*' : Char).utf8Size = 1 ∧ ('/' : Char).utf8Size = 1 := by decide
      simp only [utf8Len]
      omega
    · rename_i d rest hne1
      have := ih rest (by simp at hl; omega) (d + 1) (off + 1) cs' off' h
      have hs : ('*' : Char).utf8Size = 1 := by decide
      simp only [utf8Len]
      omega
    · rename_i d r2
      have := ih r2 (by simp at hl; omega) (d + 2) (off + 2) cs' off' h
      have hs : ('*' : Char).utf8Size = 1 ∧ ('/' : Char).utf8Size = 1 := by decide
      simp only [utf8Len]
      omega
    · rename_i d rest hne2
      have := ih rest (by simp at hl; omega) (d + 1) (off + 1) cs' off' h
      have hs : ('/' : Char).utf8Size = 1 := by decide
      simp only [utf8Len]
      omega
    · rename_i d c rest hh1 hh2 hh3 hh4
      have := ih rest (by simp at hl; omega) (d + 1) (off + c.utf8Size) cs' off' h
      simp only [utf8Len]
      omega

theorem hexdigit_ascii {c : Char} (h : isAsciiHexdigit c = true) : c.utf8Size = 1 := by
  apply utf8Size_eq_one
  rw [isAsciiHexdigit] at h
  simp only [Bool.or_eq_true, Bool.and_eq_true, decide_eq_true_eq] at h
  rcases h with (hd | ⟨h1, h2⟩) | ⟨h1, h2⟩
  · have := isDigit_iff.mp hd
    omega
  · have ha := char_le_iff.mp h1
    have hb := char_le_iff.mp h2
    change (97 : Nat) ≤ _ at ha
    change _ ≤ (102 : Nat) at hb
    omega
  · have ha := char_le_iff.mp h1
    have hb := char_le_iff.mp h2
    change (65 : Nat) ≤ _ at ha
    change _ ≤ (70 : Nat) at hb
    omega

theorem readHexRun_stream (L : Nat) (F : String) (pos : Nat) :
    ∀ (cs : List Char) (off : Nat) (hex : String) (hex' : String) (cs' : List Char) (off' : Nat),
      readHexRun L F pos cs off hex = .ok (hex', cs', off') →
      off ≤ off' ∧ off' + utf8Len cs' = off + utf8Len cs := by
  intro cs
  induction cs with
  | nil =>
    intro off hex hex' cs' off' h
    rw [readHexRun] at h
    injection h with h
    simp only [Prod.mk.injEq] at h
    obtain ⟨_, h2, h3⟩ := h
    subst h2; subst h3
    omega
  | cons c rest ih =>
    intro off hex hex' cs' off' h
    rw [readHexRun] at h
    split at h
    · rename_i hc
      injection h with h
      simp only [Prod.mk.injEq] at h
      obtain ⟨-, h2, h3⟩ := h
      subst h2; subst h3; subst hc
      have : ('}' : Char).utf8Size = 1 := by decide
      simp only [utf8Len]
      omega
    · split at h
      · rename_i hhex
        have := ih (off + 1) (hex.push c) hex' cs' off' h
        have hsz : c.utf8Size = 1 := hexdigit_ascii hhex
        simp only [utf8Len]
        omega
      · cases h

theorem read_escape_stream (L : Nat) (F : String) (pos : Nat) :
    ∀ (cs : List Char) (off : Nat) (ch : Char) (cs' : List Char) (off' : Nat),
      read_escape L F pos cs off = .ok (ch, cs', off') →
      off ≤ off' ∧ off' + utf8Len cs' = off + utf8Len cs := by
  intro cs off ch cs' off' h
  rw [read_escape.eq_def] at h
  split at h
  · cases h
  rename_i c rest
  split at h
  case isTrue hc =>
    injection h with h
    simp only [Prod.mk.injEq] at h
    obtain ⟨-, h2, h3⟩ := h
    subst h2; subst h3; subst hc
    have hsz : ('n' : Char).utf8Size = 1 := by decide
    simp only [utf8Len]
    omega
  split at h
  case isTrue hc =>
    injection h with h
    simp only [Prod.mk.injEq] at h
    obtain ⟨-, h2, h3⟩ := h
    subst h2; subst h3; subst hc
    have hsz : ('r' : Char).utf8Size = 1 := by decide
    simp only [utf8Len]
    omega
  split at h
  case isTrue hc =>
    injection h with h
    simp only [Prod.mk.injEq] at h
    obtain ⟨-, h2, h3⟩ := h
    subst h2; subst h3; subst hc
    have hsz : ('t' : Char).utf8Size = 1 := by decide
    simp only [utf8Len]
    omega
  split at h
  case isTrue hc =>
    injection h with h
    simp only [Prod.mk.injEq] at h
    obtain ⟨-, h2, h3⟩ := h
    subst h2; subst h3; subst hc
    have hsz : ('\\' : Char).utf8Size = 1 := by decide
    simp only [utf8Len]
    omega
  split at h
  case isTrue hc =>
    injection h with h
    simp only [Prod.mk.injEq] at h
    obtain ⟨-, h2, h3⟩ := h
    subst h2; subst h3; subst hc
    have hsz : ('"' : Char).utf8Size = 1 := by decide
    simp only [utf8Len]
    omega
  split at h
  case isTrue hc =>
    injection h with h
    simp only [Prod.mk.injEq] at h
    obtain ⟨-, h2, h3⟩ := h
    subst h2; subst h3; subst hc
    have hsz : ('\'' : Char).utf8Size = 1 := by decide
    simp only [utf8Len]
    omega
  split at h
  case isFalse => cases h
  case isTrue hcu =>
    split at h
    · rename_i rest2
      rcases hx : readHexRun L F pos rest2 (off + 2) "" with e | trip
      · rw [hx] at h
        exact Except.noConfusion h
      · obtain ⟨hex, cs1, off1⟩ := trip
        rw [hx] at h
        simp only [Except.bind] at h
        split at h
        · cases h
        · split at h
          · cases h
          · split at h
            · injection h with h
              simp only [Prod.mk.injEq] at h
              obtain ⟨-, h2, h3⟩ := h
              subst h2; subst h3
              have := readHexRun_stream L F pos rest2 (off + 2) "" hex cs1 off1 hx
              subst hcu
              have hsz : ('u' : Char).utf8Size = 1 ∧ ('\x7b' : Char).utf8Size = 1 := by decide
              simp only [utf8Len]
              omega
            · cases h
    · cases h

/-! ## Per-scanner facts for the success direction -/

theorem keyword_or_ident_ne_eof (s : String) : keyword_or_ident s ≠ Token.Eof := by
  intro hcontra
  rw [keyword_or_ident.eq_def] at hcontra
  repeat split at hcontra
  all_goals exact Token.noConfusion hcontra

theorem read_number_ok (L : Nat) (F : String) (start : Nat) (cs : List Char)
    (tok : Token) (e : Nat) (h : read_number L F start cs = .ok (tok, e)) :
    start ≤ e ∧ tok ≠ Token.Eof := by
  rw [read_number] at h
  split at h
  split at h
  · exact Except.noConfusion h
  rename_i numStr1 i1 rest1 heq1
  rcases hdot : read_number_dot numStr1 i1 rest1 with ⟨has_dot, numStr2, i2, rest2⟩
  rw [hdot] at h
  simp only [] at h
  repeat' split at h
  all_goals first
    | exact Except.noConfusion h
    | (injection h with h
       simp only [Prod.mk.injEq] at h
       obtain ⟨h1, h2⟩ := h
       subst h1; subst h2
       exact ⟨by omega, fun hc => Token.noConfusion hc⟩)

theorem read_ident_go_stream (start : Nat) :
    ∀ (cs : List Char) (acc : String) (len : Nat) (off : Nat)
      (acc2 : String) (cs2 : List Char) (off2 pos2 : Nat),
      read_ident_go start acc len cs off = (acc2, cs2, off2, pos2) →
      off ≤ off2 ∧ off2 + utf8Len cs2 = off + utf8Len cs ∧
        (off = start + len → pos2 = off2) := by
  intro cs
  induction cs with
  | nil =>
    intro acc len off acc2 cs2 off2 pos2 h
    rw [read_ident_go] at h
    simp only [Prod.mk.injEq] at h
    obtain ⟨-, h2, h3, h4⟩ := h
    subst h2; subst h3; subst h4
    exact ⟨le_refl _, rfl, fun he => he.symm⟩
  | cons c rest ih =>
    intro acc len off acc2 cs2 off2 pos2 h
    rw [read_ident_go] at h
    split at h
    · have hrec := ih (acc.push c) (len + c.utf8Size) (off + c.utf8Size) acc2 cs2 off2 pos2 h
      have hp := Char.utf8Size_pos c
      exact ⟨by omega, by simp only [utf8Len]; omega, fun he => hrec.2.2 (by omega)⟩
    · simp only [Prod.mk.injEq] at h
      obtain ⟨-, h2, h3, h4⟩ := h
      subst h2; subst h3; subst h4
      exact ⟨le_refl _, rfl, fun he => he.symm⟩

theorem read_string_content_go_stream (L : Nat) (F : String) (ae : Bool) (sp : Nat) :
    ∀ (fuel : Nat) (s : String) (cs : List Char) (off pos : Nat)
      (content : String) (endP : Nat) (cs2 : List Char) (off2 : Nat),
      pos + 1 ≤ off →
      read_string_content_go L F ae sp fuel s cs off pos = .ok (content, endP, cs2, off2) →
      off ≤ off2 ∧ off2 + utf8Len cs2 = off + utf8Len cs ∧ pos + 1 ≤ endP ∧ endP ≤ off2 := by
  intro fuel
  induction fuel with
  | zero =>
    intro s cs off pos content endP cs2 off2 hpos h
    cases cs with
    | nil => exact Except.noConfusion h
    | cons c rest => exact Except.noConfusion h
  | succ fuel ih =>
    intro s cs off pos content endP cs2 off2 hpos h
    cases cs with
    | nil => exact Except.noConfusion h
    | cons c rest =>
      rw [read_string_content_go] at h
      split at h
      · rename_i hc
        injection h with h
        simp only [Prod.mk.injEq] at h
        obtain ⟨-, h1, h2, h3⟩ := h
        subst h1; subst h2; subst h3; subst hc
        have hq : ('"' : Char).utf8Size = 1 := by decide
        simp only [utf8Len]
        omega
      · split at h
        · split at h
          · exact Except.noConfusion h
          · rename_i hesc x esc cs1 off1 heq
            have hs := read_escape_stream L F pos rest (off + 1) esc cs1 off1 heq
            have hih := ih (s.push esc) cs1 off1 off content endP cs2 off2 (by omega) h
            have hc2 : c = '\\' := by
              simp only [Bool.and_eq_true, decide_eq_true_eq] at hesc
              exact hesc.2
            subst hc2
            have hb : ('\\' : Char).utf8Size = 1 := by decide
            simp only [utf8Len]
            omega
        · have hp := Char.utf8Size_pos c
          have hih := ih (s.push c) rest (off + c.utf8Size) off content endP cs2 off2
            (by omega) h
          simp only [utf8Len]
          omega

theorem read_char_literal_stream (L : Nat) (F : String) (start : Nat)
    (cs : List Char) (off pos : Nat) (tok : Token) (cs2 : List Char) (off2 pos2 : Nat)
    (h : read_char_literal L F start cs off pos = .ok (tok, cs2, off2, pos2)) :
    off ≤ off2 ∧ off2 + utf8Len cs2 = off + utf8Len cs ∧
      (pos2 = L ∨ pos2 = off2) ∧ ∃ ch, tok = Token.Char ch := by
  rw [read_char_literal.eq_def] at h
  split at h
  · exact Except.noConfusion h
  · exact Except.noConfusion h
  · rename_i c rest hov
    split at h
    · exact Except.noConfusion h
    · rename_i ch cs1 off1 heq
      have hstream : off ≤ off1 ∧ off1 + utf8Len cs1 = off + utf8Len (c :: rest) := by
        by_cases hc : c = '\\'
        · rw [if_pos hc] at heq
          have hs := read_escape_stream L F pos rest (off + 1) ch cs1 off1 heq
          subst hc
          have hb : ('\\' : Char).utf8Size = 1 := by decide
          simp only [utf8Len]
          omega
        · rw [if_neg hc] at heq
          injection heq with heq
          simp only [Prod.mk.injEq] at heq
          obtain ⟨-, h1, h2⟩ := heq
          subst h1; subst h2
          have hp := Char.utf8Size_pos c
          simp only [utf8Len]
          omega
      split at h
      · rename_i cs3
        injection h with h
        simp only [Prod.mk.injEq] at h
        obtain ⟨h1, h2, h3, h4⟩ := h
        subst h1; subst h2; subst h3
        have hq : ('\'' : Char).utf8Size = 1 := by decide
        simp only [utf8Len] at hstream
        simp only [utf8Len]
        refine ⟨by omega, by omega, ?_, ⟨ch, rfl⟩⟩
        cases cs3 with
        | nil => subst h4; exact Or.inl rfl
        | cons d ds => subst h4; exact Or.inr rfl
      · exact Except.noConfusion h

theorem read_prefixed_char_stream (L : Nat) (F : String) (P : String) (ps : Nat)
    (cs : List Char) (off pos : Nat) (tok : Token) (e : Nat) (cs2 : List Char) (off2 : Nat)
    (h : read_prefixed_char L F P ps cs off pos = .ok ((tok, e), cs2, off2)) :
    off ≤ off2 ∧ off2 + utf8Len cs2 = off + utf8Len cs ∧
      (e = L ∨ e = off2) ∧ ∃ ch, tok = Token.PrefixedChar P ch := by
  rw [read_prefixed_char.eq_def] at h
  split at h
  · exact Except.noConfusion h
  · exact Except.noConfusion h
  · rename_i c rest hov
    split at h
    · exact Except.noConfusion h
    · rename_i ch cs1 off1 heq
      have hstream : off ≤ off1 ∧ off1 + utf8Len cs1 = off + utf8Len (c :: rest) := by
        by_cases hc : c = '\\'
        · rw [if_pos hc] at heq
          have hs := read_escape_stream L F pos rest (off + 1) ch cs1 off1 heq
          subst hc
          have hb : ('\\' : Char).utf8Size = 1 := by decide
          simp only [utf8Len]
          omega
        · rw [if_neg hc] at heq
          injection heq with heq
          simp only [Prod.mk.injEq] at heq
          obtain ⟨-, h1, h2⟩ := heq
          subst h1; subst h2
          have hp := Char.utf8Size_pos c
          simp only [utf8Len]
          omega
      split at h
      · exact Except.noConfusion h
      · split at h
        · rename_i cs3
          injection h with h
          simp only [Prod.mk.injEq] at h
          obtain ⟨⟨h1, h4⟩, h2, h3⟩ := h
          subst h1; subst h2; subst h3
          have hq : ('\'' : Char).utf8Size = 1 := by decide
          simp only [utf8Len] at hstream
          simp only [utf8Len]
          refine ⟨by omega, by omega, ?_, ⟨ch, rfl⟩⟩
          cases cs3 with
          | nil => subst h4; exact Or.inl rfl
          | cons d ds => subst h4; exact Or.inr rfl
        · exact Except.noConfusion h

/-- `Lexer::read_ident` wrapper of the loop lemma: when the entry offset
is `start + first.utf8Size` (as at every call site), the updated
`self.pos` equals the stream offset. -/
theorem read_ident_stream (first : Char) (start : Nat) (cs : List Char) (off : Nat)
    (id2 : String) (cs2 : List Char) (off2 pos2 : Nat)
    (hoff : off = start + first.utf8Size)
    (h : read_ident first start cs off = (id2, cs2, off2, pos2)) :
    off ≤ off2 ∧ off2 + utf8Len cs2 = off + utf8Len cs ∧ pos2 = off2 := by
  rw [read_ident] at h
  have hgo := read_ident_go_stream start cs first.toString first.utf8Size off id2 cs2 off2 pos2 h
  exact ⟨hgo.1, hgo.2.1, hgo.2.2 hoff⟩

/-- Common form of the per-token obligations for a token pushed with a
literal span `(off, off + k)`. -/
theorem span_facts {off k : Nat} {F : String} (t : Token) (ht : t ≠ Token.Eof) :
    ∀ t2 sp, (some (t, (⟨off, off + k, F⟩ : Span)) : Option (Token × Span)) = some (t2, sp) →
      sp.start = off ∧ sp.start ≤ sp.«end» ∧ t2 ≠ Token.Eof := by
  intro t2 sp hts
  simp only [Option.some.injEq, Prod.mk.injEq] at hts
  obtain ⟨h4, h5⟩ := hts
  subst h4; subst h5
  exact ⟨rfl, Nat.le_add_right _ _, ht⟩

/-- `lexStepPunct2` obligations: every pushed token starts at `off`,
has `start ≤ end`, is not `Eof`, and the stream advances coherently. -/
theorem lexStepPunct2_ok (F : String) (c : Char) (rest : List Char)
    (off : Nat) (ot : Option (Token × Span)) (cs2 : List Char) (off2 : Nat)
    (h : lexStepPunct2 F c rest off = .ok (ot, cs2, off2)) :
    off ≤ off2 ∧ off2 + utf8Len cs2 = off + utf8Len (c :: rest) ∧
      ∀ t sp, ot = some (t, sp) →
        sp.start = off ∧ sp.start ≤ sp.«end» ∧ t ≠ Token.Eof := by
  have hcp := Char.utf8Size_pos c
  rw [lexStepPunct2.eq_def] at h
  repeat' split at h
  all_goals first
    | exact Except.noConfusion h
    | (injection h with h
       simp only [Prod.mk.injEq] at h
       obtain ⟨h1, h2, h3⟩ := h
       subst h1; subst h2; subst h3
       rename_i hc
       subst hc
       refine ⟨by omega, ?_, span_facts _ (fun hx => Token.noConfusion hx)⟩
       simp only [utf8Len]
       have e1 : Char.utf8Size '(' = 1 ∧ Char.utf8Size ')' = 1 ∧ Char.utf8Size '\x7b' = 1 ∧
           Char.utf8Size '\x7d' = 1 ∧ Char.utf8Size '[' = 1 ∧ Char.utf8Size ']' = 1 ∧
           Char.utf8Size ';' = 1 ∧ Char.utf8Size ',' = 1 ∧ Char.utf8Size ':' = 1 ∧
           Char.utf8Size '.' = 1 ∧ Char.utf8Size '?' = 1 := by decide
       omega)

/-- `lexStepPunct` obligations (see `lexStepPunct2_ok`). -/
theorem lexStepPunct_ok (F : String) (c : Char) (rest : List Char)
    (off : Nat) (ot : Option (Token × Span)) (cs2 : List Char) (off2 : Nat)
    (h : lexStepPunct F c rest off = .ok (ot, cs2, off2)) :
    off ≤ off2 ∧ off2 + utf8Len cs2 = off + utf8Len (c :: rest) ∧
      ∀ t sp, ot = some (t, sp) →
        sp.start = off ∧ sp.start ≤ sp.«end» ∧ t ≠ Token.Eof := by
  have hcp := Char.utf8Size_pos c
  rw [lexStepPunct.eq_def] at h
  repeat' split at h
  all_goals first
    | exact Except.noConfusion h
    | exact lexStepPunct2_ok F c rest off ot cs2 off2 h
    | (injection h with h
       simp only [Prod.mk.injEq] at h
       obtain ⟨h1, h2, h3⟩ := h
       subst h1; subst h2; subst h3
       rename_i hc
       subst hc
       refine ⟨by omega, ?_, span_facts _ (fun hx => Token.noConfusion hx)⟩
       simp only [utf8Len]
       have e1 : Char.utf8Size '(' = 1 ∧ Char.utf8Size ')' = 1 ∧ Char.utf8Size '\x7b' = 1 ∧
           Char.utf8Size '\x7d' = 1 ∧ Char.utf8Size '[' = 1 ∧ Char.utf8Size ']' = 1 ∧
           Char.utf8Size ';' = 1 ∧ Char.utf8Size ',' = 1 ∧ Char.utf8Size ':' = 1 ∧
           Char.utf8Size '.' = 1 ∧ Char.utf8Size '?' = 1 := by decide
       omega)

/-- `lexStepOp3` obligations (see `lexStepPunct2_ok`). -/
theorem lexStepOp3_ok (F : String) (c : Char) (rest : List Char)
    (off : Nat) (ot : Option (Token × Span)) (cs2 : List Char) (off2 : Nat)
    (h : lexStepOp3 F c rest off = .ok (ot, cs2, off2)) :
    off ≤ off2 ∧ off2 + utf8Len cs2 = off + utf8Len (c :: rest) ∧
      ∀ t sp, ot = some (t, sp) →
        sp.start = off ∧ sp.start ≤ sp.«end» ∧ t ≠ Token.Eof := by
  have hcp := Char.utf8Size_pos c
  rw [lexStepOp3.eq_def] at h
  -- '%'
  split at h
  case isTrue hc =>
    split at h <;>
    · injection h with h
      simp only [Prod.mk.injEq] at h
      obtain ⟨h1, h2, h3⟩ := h
      subst h1; subst h2; subst h3
      subst hc
      have e1 : ('%' : Char).utf8Size = 1 := by decide
      have e2 : ('=' : Char).utf8Size = 1 := by decide
      exact ⟨by omega, by simp only [utf8Len]; omega, span_facts _ (fun hx => Token.noConfusion hx)⟩
  -- '&'
  split at h
  case isTrue hc =>
    split at h <;>
    · injection h with h
      simp only [Prod.mk.injEq] at h
      obtain ⟨h1, h2, h3⟩ := h
      subst h1; subst h2; subst h3
      subst hc
      have e1 : ('&' : Char).utf8Size = 1 := by decide
      have e2 : ('=' : Char).utf8Size = 1 := by decide
      exact ⟨by omega, by simp only [utf8Len]; omega, span_facts _ (fun hx => Token.noConfusion hx)⟩
  -- '|'
  split at h
  case isTrue hc =>
    split at h <;>
    · injection h with h
      simp only [Prod.mk.injEq] at h
      obtain ⟨h1, h2, h3⟩ := h
      subst h1; subst h2; subst h3
      subst hc
      have e1 : ('|' : Char).utf8Size = 1 := by decide
      have e2 : ('=' : Char).utf8Size = 1 := by decide
      exact ⟨by omega, by simp only [utf8Len]; omega, span_facts _ (fun hx => Token.noConfusion hx)⟩
  -- '^'
  split at h
  case isTrue hc =>
    split at h <;>
    · injection h with h
      simp only [Prod.mk.injEq] at h
      obtain ⟨h1, h2, h3⟩ := h
      subst h1; subst h2; subst h3
      subst hc
      have e1 : ('^' : Char).utf8Size = 1 := by decide
      have e2 : ('=' : Char).utf8Size = 1 := by decide
      exact ⟨by omega, by simp only [utf8Len]; omega, span_facts _ (fun hx => Token.noConfusion hx)⟩
  exact lexStepPunct_ok F c rest off ot cs2 off2 h

/-- `lexStepOp2` obligations (see `lexStepPunct2_ok`). -/
theorem lexStepOp2_ok (L : Nat) (F : String) (c : Char) (rest : List Char)
    (off : Nat) (ot : Option (Token × Span)) (cs2 : List Char) (off2 : Nat)
    (h : lexStepOp2 L F c rest off = .ok (ot, cs2, off2)) :
    off ≤ off2 ∧ off2 + utf8Len cs2 = off + utf8Len (c :: rest) ∧
      ∀ t sp, ot = some (t, sp) →
        sp.start = off ∧ sp.start ≤ sp.«end» ∧ t ≠ Token.Eof := by
  have hcp := Char.utf8Size_pos c
  rw [lexStepOp2.eq_def] at h
  -- '+'
  split at h
  case isTrue hc =>
    split at h <;>
    · injection h with h
      simp only [Prod.mk.injEq] at h
      obtain ⟨h1, h2, h3⟩ := h
      subst h1; subst h2; subst h3
      subst hc
      have e1 : ('+' : Char).utf8Size = 1 := by decide
      have e2 : ('=' : Char).utf8Size = 1 := by decide
      exact ⟨by omega, by simp only [utf8Len]; omega, span_facts _ (fun hx => Token.noConfusion hx)⟩
  -- '-'
  split at h
  case isTrue hc =>
    split at h <;>
    · injection h with h
      simp only [Prod.mk.injEq] at h
      obtain ⟨h1, h2, h3⟩ := h
      subst h1; subst h2; subst h3
      subst hc
      have e1 : ('-' : Char).utf8Size = 1 := by decide
      have e2 : ('=' : Char).utf8Size = 1 := by decide
      have e3 : ('>' : Char).utf8Size = 1 := by decide
      exact ⟨by omega, by simp only [utf8Len]; omega, span_facts _ (fun hx => Token.noConfusion hx)⟩
  -- '*'
  split at h
  case isTrue hc =>
    split at h <;>
    · injection h with h
      simp only [Prod.mk.injEq] at h
      obtain ⟨h1, h2, h3⟩ := h
      subst h1; subst h2; subst h3
      subst hc
      have e1 : ('*' : Char).utf8Size = 1 := by decide
      have e2 : ('=' : Char).utf8Size = 1 := by decide
      exact ⟨by omega, by simp only [utf8Len]; omega, span_facts _ (fun hx => Token.noConfusion hx)⟩
  -- '/'
  split at h
  case isTrue hc =>
    split at h
    · -- line comment
      rename_i r2v
      split at h
      · -- doc comment: third '/' also consumed
        rename_i r3
        split at h
        rename_i csA offA heqsl
        injection h with h
        simp only [Prod.mk.injEq] at h
        obtain ⟨h1, h2, h3⟩ := h
        subst h1; subst h2; subst h3
        subst hc
        have hsl := skip_line_comment_stream r3 (off + 3)
        rw [heqsl] at hsl
        simp only [] at hsl
        have e1 : ('/' : Char).utf8Size = 1 := by decide
        refine ⟨by omega, by simp only [utf8Len]; omega, fun t sp hts => Option.noConfusion hts⟩
      · -- plain line comment
        split at h
        rename_i csA offA heqsl
        injection h with h
        simp only [Prod.mk.injEq] at h
        obtain ⟨h1, h2, h3⟩ := h
        subst h1; subst h2; subst h3
        subst hc
        have hsl := skip_line_comment_stream r2v (off + 2)
        rw [heqsl] at hsl
        simp only [] at hsl
        have e1 : ('/' : Char).utf8Size = 1 := by decide
        refine ⟨by omega, by simp only [utf8Len]; omega, fun t sp hts => Option.noConfusion hts⟩
    · -- block comment
      rename_i r2v
      split at h
      · exact Except.noConfusion h
      · rename_i cs3 off3 heqb
        injection h with h
        simp only [Prod.mk.injEq] at h
        obtain ⟨h1, h2, h3⟩ := h
        subst h1; subst h2; subst h3
        subst hc
        have hsb := skip_block_comment_stream L F r2v.length r2v (le_refl _) 1 (off + 2)
          cs3 off3 heqb
        have e1 : ('/' : Char).utf8Size = 1 := by decide
        have e2 : ('*' : Char).utf8Size = 1 := by decide
        refine ⟨by omega, by simp only [utf8Len]; omega, fun t sp hts => Option.noConfusion hts⟩
    · -- /=
      injection h with h
      simp only [Prod.mk.injEq] at h
      obtain ⟨h1, h2, h3⟩ := h
      subst h1; subst h2; subst h3
      subst hc
      have e1 : ('/' : Char).utf8Size = 1 := by decide
      have e2 : ('=' : Char).utf8Size = 1 := by decide
      exact ⟨by omega, by simp only [utf8Len]; omega, span_facts _ (fun hx => Token.noConfusion hx)⟩
    · -- plain slash
      injection h with h
      simp only [Prod.mk.injEq] at h
      obtain ⟨h1, h2, h3⟩ := h
      subst h1; subst h2; subst h3
      subst hc
      have e1 : ('/' : Char).utf8Size = 1 := by decide
      exact ⟨by omega, by simp only [utf8Len]; omega, span_facts _ (fun hx => Token.noConfusion hx)⟩
  exact lexStepOp3_ok F c rest off ot cs2 off2 h

/-- `lexStepOp` obligations (see `lexStepPunct2_ok`). -/
theorem lexStepOp_ok (L : Nat) (F : String) (c : Char) (rest : List Char)
    (off : Nat) (ot : Option (Token × Span)) (cs2 : List Char) (off2 : Nat)
    (h : lexStepOp L F c rest off = .ok (ot, cs2, off2)) :
    off ≤ off2 ∧ off2 + utf8Len cs2 = off + utf8Len (c :: rest) ∧
      ∀ t sp, ot = some (t, sp) →
        sp.start = off ∧ sp.start ≤ sp.«end» ∧ t ≠ Token.Eof := by
  have hcp := Char.utf8Size_pos c
  rw [lexStepOp.eq_def] at h
  -- '='
  split at h
  case isTrue hc =>
    split at h
    · injection h with h
      simp only [Prod.mk.injEq] at h
      obtain ⟨h1, h2, h3⟩ := h
      subst h1; subst h2; subst h3
      subst hc
      have e1 : ('=' : Char).utf8Size = 1 := by decide
      have e2 : ('>' : Char).utf8Size = 1 := by decide
      exact ⟨by omega, by simp only [utf8Len]; omega, span_facts _ (fun hx => Token.noConfusion hx)⟩
    · injection h with h
      simp only [Prod.mk.injEq] at h
      obtain ⟨h1, h2, h3⟩ := h
      subst h1; subst h2; subst h3
      subst hc
      have e1 : ('=' : Char).utf8Size = 1 := by decide
      have e2 : ('>' : Char).utf8Size = 1 := by decide
      exact ⟨by omega, by simp only [utf8Len]; omega, span_facts _ (fun hx => Token.noConfusion hx)⟩
    · injection h with h
      simp only [Prod.mk.injEq] at h
      obtain ⟨h1, h2, h3⟩ := h
      subst h1; subst h2; subst h3
      subst hc
      have e1 : ('=' : Char).utf8Size = 1 := by decide
      exact ⟨by omega, by simp only [utf8Len]; omega, span_facts _ (fun hx => Token.noConfusion hx)⟩
  -- '!'
  split at h
  case isTrue hc =>
    split at h
    case isTrue hcq =>
      injection h with h
      simp only [Prod.mk.injEq] at h
      obtain ⟨h1, h2, h3⟩ := h
      subst h1; subst h2; subst h3
      subst hc
      cases rest with
      | nil => simp at hcq
      | cons r0 rtl =>
        have hr0 : r0 = '=' := by simpa using hcq
        subst hr0
        have e1 : ('!' : Char).utf8Size = 1 := by decide
        have e2 : ('=' : Char).utf8Size = 1 := by decide
        refine ⟨by omega, ?_, span_facts _ (fun hx => Token.noConfusion hx)⟩
        simp only [List.tail_cons, utf8Len]
        omega
    case isFalse => exact Except.noConfusion h
  -- '<'
  split at h
  case isTrue hc =>
    split at h <;>
    · injection h with h
      simp only [Prod.mk.injEq] at h
      obtain ⟨h1, h2, h3⟩ := h
      subst h1; subst h2; subst h3
      subst hc
      have e1 : ('<' : Char).utf8Size = 1 := by decide
      have e2 : ('=' : Char).utf8Size = 1 := by decide
      exact ⟨by omega, by simp only [utf8Len]; omega, span_facts _ (fun hx => Token.noConfusion hx)⟩
  -- '>'
  split at h
  case isTrue hc =>
    split at h <;>
    · injection h with h
      simp only [Prod.mk.injEq] at h
      obtain ⟨h1, h2, h3⟩ := h
      subst h1; subst h2; subst h3
      subst hc
      have e1 : ('>' : Char).utf8Size = 1 := by decide
      have e2 : ('=' : Char).utf8Size = 1 := by decide
      exact ⟨by omega, by simp only [utf8Len]; omega, span_facts _ (fun hx => Token.noConfusion hx)⟩
  exact lexStepOp2_ok L F c rest off ot cs2 off2 h

/-- Master lemma for one successful iteration of the main loop: the
stream offset never decreases and stays coherent with the remaining
stream, and any pushed token has `span.start` equal to the iteration's
start offset, `span.start ≤ span.end`, and is never `Eof`. -/
theorem lexStep_ok (L : Nat) (F : String) (A : Char → Bool) (c : Char) (rest : List Char)
    (off : Nat) (ot : Option (Token × Span)) (cs2 : List Char) (off2 : Nat)
    (hL : off + utf8Len (c :: rest) = L)
    (h : lexStep L F A c rest off = .ok (ot, cs2, off2)) :
    off ≤ off2 ∧ off2 + utf8Len cs2 = off + utf8Len (c :: rest) ∧
      ∀ t sp, ot = some (t, sp) →
        sp.start = off ∧ sp.start ≤ sp.«end» ∧ t ≠ Token.Eof := by
  have hcp := Char.utf8Size_pos c
  rw [lexStep.eq_def] at h
  -- whitespace
  split at h
  case isTrue hc =>
    injection h with h
    simp only [Prod.mk.injEq] at h
    obtain ⟨h1, h2, h3⟩ := h
    subst h1; subst h2; subst h3
    exact ⟨by omega, by simp only [utf8Len]; omega, fun t sp hts => Option.noConfusion hts⟩
  -- number literal
  split at h
  case isTrue hc =>
    split at h
    · exact Except.noConfusion h
    · rename_i tok endPos heqn
      split at h
      rename_i csA offA heqa
      injection h with h
      simp only [Prod.mk.injEq] at h
      obtain ⟨h1, h2, h3⟩ := h
      subst h1; subst h2; subst h3
      have hn := read_number_ok L F off (c :: rest) tok endPos heqn
      have ha := advanceLt_stream endPos rest (off + c.utf8Size)
      rw [heqa] at ha
      refine ⟨by omega, by simp only [utf8Len] at ha ⊢; omega, ?_⟩
      intro t sp hts
      simp only [Option.some.injEq, Prod.mk.injEq] at hts
      obtain ⟨h4, h5⟩ := hts
      subst h4; subst h5
      exact ⟨rfl, hn.1, hn.2⟩
  -- identifier / keyword / prefixed literal
  split at h
  case isTrue hc =>
    split at h
    rename_i ident cs1 off1 pos1 heqi
    have hri := read_ident_stream c off rest (off + c.utf8Size) ident cs1 off1 pos1 rfl heqi
    split at h
    · -- prefixed string
      rename_i cs2tl
      split at h
      · exact Except.noConfusion h
      · rename_i content endP cs3 off3 heqs
        rw [read_string_content] at heqs
        have hs := read_string_content_go_stream L F false pos1 (cs2tl.length + 1) ""
          cs2tl (off1 + 1) pos1 content endP cs3 off3 (by omega) heqs
        injection h with h
        simp only [Prod.mk.injEq] at h
        obtain ⟨h1, h2, h3⟩ := h
        subst h1; subst h2; subst h3
        have hb : ('"' : Char).utf8Size = 1 := by decide
        simp only [utf8Len] at hri ⊢
        refine ⟨by omega, by omega, ?_⟩
        intro t sp hts
        simp only [Option.some.injEq, Prod.mk.injEq] at hts
        obtain ⟨h4, h5⟩ := hts
        subst h4; subst h5
        refine ⟨rfl, ?_, fun hx => Token.noConfusion hx⟩
        show off ≤ endP
        omega
    · -- prefixed character literal
      rename_i cs2tl
      split at h
      · exact Except.noConfusion h
      · rename_i tok endE cs3 off3 heqp
        have hp := read_prefixed_char_stream L F ident off cs2tl (off1 + 1) pos1
          tok endE cs3 off3 heqp
        injection h with h
        simp only [Prod.mk.injEq] at h
        obtain ⟨h1, h2, h3⟩ := h
        subst h1; subst h2; subst h3
        have hb : ('\'' : Char).utf8Size = 1 := by decide
        simp only [utf8Len] at hri hL ⊢
        obtain ⟨hp1, hp2, hp3, ch, hp4⟩ := hp
        subst hp4
        refine ⟨by omega, by omega, ?_⟩
        intro t sp hts
        simp only [Option.some.injEq, Prod.mk.injEq] at hts
        obtain ⟨h4, h5⟩ := hts
        subst h4; subst h5
        refine ⟨rfl, ?_, fun hx => Token.noConfusion hx⟩
        show off ≤ endE
        rcases hp3 with he | he <;> omega
    · -- plain identifier or keyword
      injection h with h
      simp only [Prod.mk.injEq] at h
      obtain ⟨h1, h2, h3⟩ := h
      subst h1; subst h2; subst h3
      refine ⟨by omega, by simp only [utf8Len] at hri ⊢; omega, ?_⟩
      intro t sp hts
      simp only [Option.some.injEq, Prod.mk.injEq] at hts
      obtain ⟨h4, h5⟩ := hts
      subst h4; subst h5
      refine ⟨rfl, ?_, keyword_or_ident_ne_eof ident⟩
      show off ≤ pos1
      omega
  -- string literal
  split at h
  case isTrue hc =>
    split at h
    · exact Except.noConfusion h
    · rename_i content endP cs3 off3 heqs
      rw [read_string_content] at heqs
      have hs := read_string_content_go_stream L F true off (rest.length + 1) ""
        rest (off + 1) off content endP cs3 off3 (by omega) heqs
      injection h with h
      simp only [Prod.mk.injEq] at h
      obtain ⟨h1, h2, h3⟩ := h
      subst h1; subst h2; subst h3
      subst hc
      have hb : ('"' : Char).utf8Size = 1 := by decide
      simp only [utf8Len]
      refine ⟨by omega, by omega, ?_⟩
      intro t sp hts
      simp only [Option.some.injEq, Prod.mk.injEq] at hts
      obtain ⟨h4, h5⟩ := hts
      subst h4; subst h5
      refine ⟨rfl, ?_, fun hx => Token.noConfusion hx⟩
      show off ≤ endP
      omega
  -- character literal or lifetime
  split at h
  case isTrue hc =>
    split at h
    · exact Except.noConfusion h
    · -- rest = f :: rest2
      rename_i f rest2
      split at h
      case isTrue hfa =>
        split at h
        · -- character literal like 'a'
          split at h
          · exact Except.noConfusion h
          · rename_i tok cs3 off3 pos3 heqc
            have hcl := read_char_literal_stream L F off _ (off + 1) off
              tok cs3 off3 pos3 heqc
            injection h with h
            simp only [Prod.mk.injEq] at h
            obtain ⟨h1, h2, h3⟩ := h
            subst h1; subst h2; subst h3
            subst hc
            have hb : ('\'' : Char).utf8Size = 1 := by decide
            simp only [utf8Len] at hcl hL ⊢
            obtain ⟨hc1, hc2, hc3, ch, hc4⟩ := hcl
            subst hc4
            refine ⟨by omega, by omega, ?_⟩
            intro t sp hts
            simp only [Option.some.injEq, Prod.mk.injEq] at hts
            obtain ⟨h4, h5⟩ := hts
            subst h4; subst h5
            refine ⟨rfl, ?_, fun hx => Token.noConfusion hx⟩
            show off ≤ pos3
            rcases hc3 with he | he <;> omega
        · -- lifetime like 'static
          split at h
          rename_i ident cs3 off3 pos3 heqi2
          have hri := read_ident_stream f (off + 1) _ (off + 1 + f.utf8Size)
            ident cs3 off3 pos3 rfl heqi2
          injection h with h
          simp only [Prod.mk.injEq] at h
          obtain ⟨h1, h2, h3⟩ := h
          subst h1; subst h2; subst h3
          subst hc
          have hb : ('\'' : Char).utf8Size = 1 := by decide
          have hfp := Char.utf8Size_pos f
          simp only [utf8Len] at hri ⊢
          refine ⟨by omega, by omega, ?_⟩
          intro t sp hts
          simp only [Option.some.injEq, Prod.mk.injEq] at hts
          obtain ⟨h4, h5⟩ := hts
          subst h4; subst h5
          refine ⟨rfl, ?_, fun hx => Token.noConfusion hx⟩
          show off ≤ pos3
          omega
        · exact Except.noConfusion h
      case isFalse =>
        split at h
        · exact Except.noConfusion h
        · rename_i tok cs3 off3 pos3 heqc
          have hcl := read_char_literal_stream L F off _ (off + 1) off
            tok cs3 off3 pos3 heqc
          injection h with h
          simp only [Prod.mk.injEq] at h
          obtain ⟨h1, h2, h3⟩ := h
          subst h1; subst h2; subst h3
          subst hc
          have hb : ('\'' : Char).utf8Size = 1 := by decide
          simp only [utf8Len] at hcl hL ⊢
          obtain ⟨hc1, hc2, hc3, ch, hc4⟩ := hcl
          subst hc4
          refine ⟨by omega, by omega, ?_⟩
          intro t sp hts
          simp only [Option.some.injEq, Prod.mk.injEq] at hts
          obtain ⟨h4, h5⟩ := hts
          subst h4; subst h5
          refine ⟨rfl, ?_, fun hx => Token.noConfusion hx⟩
          show off ≤ pos3
          rcases hc3 with he | he <;> omega
  -- operator / punctuation tail
  exact lexStepOp_ok L F c rest off ot cs2 off2 h

/-- `isEof` is false exactly off the `Eof` constructor. -/
theorem isEof_false {t : Token} (ht : t ≠ Token.Eof) : isEof t = false := by
  cases t <;> first | rfl | exact absurd rfl ht

/-- Master lemma for the main loop in the success direction: relative to
the tokens already accumulated, a successful run appends a non-empty
block of tokens that ends in the `Eof` marker `(L, L)`, contains exactly
one `Eof`, has all span starts at or after the entry offset with
`start ≤ end`, and has non-decreasing span starts. -/
theorem lexLoop_ok (L : Nat) (F : String) (A : Char → Bool) :
    ∀ (fuel : Nat) (cs : List Char) (off : Nat) (acc out : List (Token × Span)),
      off + utf8Len cs = L →
      lexLoop L F A fuel cs off acc = .ok out →
      ∃ new, out = acc ++ new ∧
        new ≠ [] ∧
        new.getLast? = some (Token.Eof, ⟨L, L, F⟩) ∧
        new.countP (fun p => isEof p.1) = 1 ∧
        (∀ p ∈ new, off ≤ p.2.start ∧ p.2.start ≤ p.2.«end») ∧
        List.Chain' (fun p q => p.2.start ≤ q.2.start) new := by
  intro fuel
  induction fuel with
  | zero =>
    intro cs off acc out hL h
    cases cs with
    | nil =>
      rw [lexLoop_nil] at h
      injection h with h
      refine ⟨[(Token.Eof, ⟨L, L, F⟩)], h.symm, by simp, by simp, by simp [isEof], ?_, by simp⟩
      intro p hp
      simp only [List.mem_singleton] at hp
      subst hp
      simp only [utf8Len] at hL
      exact ⟨(by omega : off ≤ L), le_refl L⟩
    | cons c rest => exact Except.noConfusion h
  | succ fuel ih =>
    intro cs off acc out hL h
    cases cs with
    | nil =>
      rw [lexLoop_nil] at h
      injection h with h
      refine ⟨[(Token.Eof, ⟨L, L, F⟩)], h.symm, by simp, by simp, by simp [isEof], ?_, by simp⟩
      intro p hp
      simp only [List.mem_singleton] at hp
      subst hp
      simp only [utf8Len] at hL
      exact ⟨(by omega : off ≤ L), le_refl L⟩
    | cons c rest =>
      rw [lexLoop] at h
      split at h
      · exact Except.noConfusion h
      · rename_i ot cs1 off1 heqs
        have hstep := lexStep_ok L F A c rest off ot cs1 off1 hL heqs
        obtain ⟨hoff, hcons, htoks⟩ := hstep
        obtain ⟨new1, hout, hne1, hlast1, hcount1, hmem1, hchain1⟩ :=
          ih cs1 off1 (acc ++ ot.toList) out (by omega) h
        cases ot with
        | none =>
          refine ⟨new1, by simpa using hout, hne1, hlast1, hcount1, ?_, hchain1⟩
          intro p hp
          have hm := hmem1 p hp
          exact ⟨hoff.trans hm.1, hm.2⟩
        | some ts =>
          obtain ⟨t, sp⟩ := ts
          obtain ⟨hsp1, hsp2, hsp3⟩ := htoks t sp rfl
          refine ⟨(t, sp) :: new1, by simpa using hout, by simp, ?_, ?_, ?_, ?_⟩
          · rw [show (t, sp) :: new1 = [(t, sp)] ++ new1 from rfl,
              List.getLast?_append, hlast1]
            rfl
          · rw [List.countP_cons, hcount1]
            simp [isEof_false hsp3]
          · intro p hp
            rcases List.mem_cons.mp hp with hp | hp
            · subst hp
              exact ⟨le_of_eq hsp1.symm, hsp2⟩
            · have hm := hmem1 p hp
              exact ⟨hoff.trans hm.1, hm.2⟩
          · refine List.chain'_cons'.mpr ⟨?_, hchain1⟩
            intro q hq
            have hqm := hmem1 q (List.mem_of_mem_head? hq)
            exact hsp1.le.trans (hoff.trans hqm.1)

/-! ## C1: exactly one end-of-stream marker, closing every successful scan -/

/-- C1: on every successful scan the token sequence is non-empty, its
last element is the `Eof` token with the empty span `(n, n)` at `n` the
byte length of the post-shebang-stripped source, and `Eof` occurs
exactly once in the sequence. -/
theorem C1_eof_marker (alpha : Char → Bool) (source file : String)
    (toks : List (Token × Span)) (h : lexWith alpha source file = .ok toks) :
    toks ≠ [] ∧
    toks.getLast? = some (Token.Eof,
      ⟨utf8Len (stripShebang source.data), utf8Len (stripShebang source.data), file⟩) ∧
    toks.countP (fun p => isEof p.1) = 1 := by
  rw [lexWith] at h
  obtain ⟨new, hout, hne, hlast, hcount, -, -⟩ :=
    lexLoop_ok (utf8Len (stripShebang source.data)) file alpha
      ((stripShebang source.data).length + 1) (stripShebang source.data) 0 [] toks
      (by omega) h
  rw [List.nil_append] at hout
  subst hout
  exact ⟨hne, hlast, hcount⟩

/-- C1 witness: the empty source scans to exactly the `Eof` token with
span `(0, 0)`. -/
theorem C1_witness :
    ([((Token.Eof : Token), (⟨0, 0, "f"⟩ : Span))] : List (Token × Span)) ≠ [] ∧
    ([((Token.Eof : Token), (⟨0, 0, "f"⟩ : Span))] : List (Token × Span)).getLast? =
      some (Token.Eof,
        ⟨utf8Len (stripShebang ("" : String).data),
         utf8Len (stripShebang ("" : String).data), "f"⟩) ∧
    ([((Token.Eof : Token), (⟨0, 0, "f"⟩ : Span))] : List (Token × Span)).countP
      (fun p => isEof p.1) = 1 :=
  C1_eof_marker Char.isAlpha "" "f" [(Token.Eof, ⟨0, 0, "f"⟩)] rfl

/-! ## C2: span sanity and monotonicity -/

/-- C2: on every successful scan, every emitted span satisfies
`start ≤ end`, and the span starts are non-decreasing in emission
order. -/
theorem C2_span_monotone (alpha : Char → Bool) (source file : String)
    (toks : List (Token × Span)) (h : lexWith alpha source file = .ok toks) :
    (∀ p ∈ toks, p.2.start ≤ p.2.«end») ∧
    List.Chain' (fun p q => p.2.start ≤ q.2.start) toks := by
  rw [lexWith] at h
  obtain ⟨new, hout, -, -, -, hmem, hchain⟩ :=
    lexLoop_ok (utf8Len (stripShebang source.data)) file alpha
      ((stripShebang source.data).length + 1) (stripShebang source.data) 0 [] toks
      (by omega) h
  rw [List.nil_append] at hout
  subst hout
  exact ⟨fun p hp => (hmem p hp).2, hchain⟩

/-- C2 witness: the theorem applied to the scan of `a != b`. -/
theorem C2_witness :
    (∀ p ∈ ([((Token.Ident "a" : Token), (⟨0, 1, "f"⟩ : Span)), (Token.Neq, ⟨2, 4, "f"⟩),
        (Token.Ident "b", ⟨5, 6, "f"⟩), (Token.Eof, ⟨6, 6, "f"⟩)] : List (Token × Span)),
      p.2.start ≤ p.2.«end») ∧
    List.Chain' (fun p q => p.2.start ≤ q.2.start)
      ([((Token.Ident "a" : Token), (⟨0, 1, "f"⟩ : Span)), (Token.Neq, ⟨2, 4, "f"⟩),
        (Token.Ident "b", ⟨5, 6, "f"⟩), (Token.Eof, ⟨6, 6, "f"⟩)] : List (Token × Span)) :=
  C2_span_monotone Char.isAlpha "a != b" "f"
    [(Token.Ident "a", ⟨0, 1, "f"⟩), (Token.Neq, ⟨2, 4, "f"⟩),
     (Token.Ident "b", ⟨5, 6, "f"⟩), (Token.Eof, ⟨6, 6, "f"⟩)] rfl

/-! ## Error-invariant propagation: every error the lexer can produce
satisfies `ErrorInv` (surrogate message unreachable, unterminated block
comment span always the whole source). -/

theorem errorInv_of_ne (L : Nat) (F : String) (msg : String) (sp : Span)
    (h1 : msg ≠ "unterminated block comment")
    (h2 : msg ≠ "character literal contains invalid Unicode surrogate") :
    ErrorInv L F (.Lexical msg sp) :=
  ⟨fun hm => absurd hm h1, h2⟩

/-- The dynamic unknown-escape message never collides with the two
messages `ErrorInv` distinguishes. -/
theorem unknownEscape_msgs (c : Char) :
    ("unknown escape sequence \\" ++ c.toString) ≠ "unterminated block comment" ∧
    ("unknown escape sequence \\" ++ c.toString) ≠
      "character literal contains invalid Unicode surrogate" := by
  constructor <;>
  · intro hm
    have h2 := congrArg (fun s => s.data.take 3) hm
    simp only [] at h2
    rw [show ("unknown escape sequence \\" ++ c.toString).data
        = "unknown escape sequence \\".data ++ [c] from rfl] at h2
    rw [List.take_append_of_le_length (by decide)] at h2
    exact absurd h2 (by decide)

/-- The dynamic unexpected-character message never collides with the two
messages `ErrorInv` distinguishes. -/
theorem unexpectedChar_msgs (c : Char) :
    ("unexpected character: '" ++ c.toString ++ "'") ≠ "unterminated block comment" ∧
    ("unexpected character: '" ++ c.toString ++ "'") ≠
      "character literal contains invalid Unicode surrogate" := by
  constructor <;>
  · intro hm
    have h2 := congrArg (fun s => s.data.take 3) hm
    simp only [] at h2
    rw [show ("unexpected character: '" ++ c.toString ++ "'").data
        = ("unexpected character: '".data ++ [c]) ++ ['\''] from rfl,
      List.append_assoc] at h2
    rw [List.take_append_of_le_length (by decide)] at h2
    exact absurd h2 (by decide)

theorem readHexRun_err (L : Nat) (F : String) (pos : Nat) :
    ∀ (cs : List Char) (off : Nat) (hex : String) (e : LumeError),
      readHexRun L F pos cs off hex = .error e → ErrorInv L F e := by
  intro cs
  induction cs with
  | nil =>
    intro off hex e h
    exact Except.noConfusion h
  | cons c rest ih =>
    intro off hex e h
    rw [readHexRun] at h
    split at h
    · exact Except.noConfusion h
    · split at h
      · exact ih (off + 1) (hex.push c) e h
      · injection h with h
        subst h
        exact errorInv_of_ne _ _ _ _ (by decide) (by decide)

theorem read_escape_err (L : Nat) (F : String) (pos : Nat) :
    ∀ (cs : List Char) (off : Nat) (e : LumeError),
      read_escape L F pos cs off = .error e → ErrorInv L F e := by
  intro cs off e h
  rw [read_escape.eq_def] at h
  split at h
  · injection h with h
    subst h
    exact errorInv_of_ne _ _ _ _ (by decide) (by decide)
  rename_i c rest
  split at h
  · exact Except.noConfusion h
  split at h
  · exact Except.noConfusion h
  split at h
  · exact Except.noConfusion h
  split at h
  · exact Except.noConfusion h
  split at h
  · exact Except.noConfusion h
  split at h
  · exact Except.noConfusion h
  split at h
  case isTrue hcu =>
    split at h
    · rename_i rest2
      split at h
      · rename_i e0 heqh
        injection h with h
        subst h
        exact readHexRun_err L F pos rest2 (off + 2) "" e0 heqh
      · split at h
        · injection h with h
          subst h
          exact errorInv_of_ne _ _ _ _ (by decide) (by decide)
        · split at h
          · injection h with h
            subst h
            exact errorInv_of_ne _ _ _ _ (by decide) (by decide)
          · split at h
            · exact Except.noConfusion h
            · injection h with h
              subst h
              exact errorInv_of_ne _ _ _ _ (by decide) (by decide)
    · injection h with h
      subst h
      exact errorInv_of_ne _ _ _ _ (by decide) (by decide)
  case isFalse =>
    rename_i hc
    injection h with h
    subst h
    exact errorInv_of_ne _ _ _ _ (unknownEscape_msgs c).1 (unknownEscape_msgs c).2

theorem read_string_content_go_err (L : Nat) (F : String) (ae : Bool) (sp : Nat) :
    ∀ (fuel : Nat) (s : String) (cs : List Char) (off pos : Nat) (e : LumeError),
      read_string_content_go L F ae sp fuel s cs off pos = .error e → ErrorInv L F e := by
  intro fuel
  induction fuel with
  | zero =>
    intro s cs off pos e h
    cases cs with
    | nil =>
      injection h with h
      subst h
      exact errorInv_of_ne _ _ _ _ (by decide) (by decide)
    | cons c rest =>
      injection h with h
      subst h
      exact errorInv_of_ne _ _ _ _ (by decide) (by decide)
  | succ fuel ih =>
    intro s cs off pos e h
    cases cs with
    | nil =>
      injection h with h
      subst h
      exact errorInv_of_ne _ _ _ _ (by decide) (by decide)
    | cons c rest =>
      rw [read_string_content_go] at h
      split at h
      · exact Except.noConfusion h
      · split at h
        · split at h
          · rename_i e0 heqe
            injection h with h
            subst h
            exact read_escape_err L F pos rest (off + 1) e0 heqe
          · rename_i esc cs1 off1 heqe
            exact ih (s.push esc) cs1 off1 off e h
        · exact ih (s.push c) rest (off + c.utf8Size) off e h

theorem read_char_literal_err (L : Nat) (F : String) (start : Nat)
    (cs : List Char) (off pos : Nat) (e : LumeError)
    (h : read_char_literal L F start cs off pos = .error e) : ErrorInv L F e := by
  rw [read_char_literal.eq_def] at h
  split at h
  · injection h with h
    subst h
    exact errorInv_of_ne _ _ _ _ (by decide) (by decide)
  · injection h with h
    subst h
    exact errorInv_of_ne _ _ _ _ (by decide) (by decide)
  · rename_i c rest hov
    split at h
    · rename_i e0 heqe
      injection h with h
      subst h
      by_cases hc : c = '\\'
      · rw [if_pos hc] at heqe
        exact read_escape_err L F pos rest (off + 1) e0 heqe
      · rw [if_neg hc] at heqe
        exact Except.noConfusion heqe
    · split at h
      · exact Except.noConfusion h
      · injection h with h
        subst h
        exact errorInv_of_ne _ _ _ _ (by decide) (by decide)

theorem read_prefixed_char_err (L : Nat) (F : String) (P : String) (ps : Nat)
    (cs : List Char) (off pos : Nat) (e : LumeError)
    (h : read_prefixed_char L F P ps cs off pos = .error e) : ErrorInv L F e := by
  rw [read_prefixed_char.eq_def] at h
  split at h
  · injection h with h
    subst h
    exact errorInv_of_ne _ _ _ _ (by decide) (by decide)
  · injection h with h
    subst h
    exact errorInv_of_ne _ _ _ _ (by decide) (by decide)
  · rename_i c rest hov
    split at h
    · rename_i e0 heqe
      injection h with h
      subst h
      by_cases hc : c = '\\'
      · rw [if_pos hc] at heqe
        exact read_escape_err L F pos rest (off + 1) e0 heqe
      · rw [if_neg hc] at heqe
        exact Except.noConfusion heqe
    · rename_i ch cs1 off1 heqe
      split at h
      case isTrue hsur => exact absurd hsur (char_not_surrogate ch)
      case isFalse =>
        split at h
        · exact Except.noConfusion h
        · injection h with h
          subst h
          exact errorInv_of_ne _ _ _ _ (by decide) (by decide)

theorem read_number_exp_err (F : String) (start : Nat) (numStr2 : List Char) (i2 : Nat)
    (rest2 : List Char) (e : LumeError)
    (h : read_number_exp F start numStr2 i2 rest2 = .error e) : ErrorInv 0 F e ∧
      ∀ L, ErrorInv L F e := by
  suffices hs : ∀ L, ErrorInv L F e from ⟨hs 0, hs⟩
  intro L
  rw [read_number_exp.eq_def] at h
  split at h
  · split at h
    · simp only [] at h
      repeat' split at h
      all_goals first
        | exact Except.noConfusion h
        | (injection h with h
           subst h
           exact errorInv_of_ne _ _ _ _ (by decide) (by decide))
    · exact Except.noConfusion h
  · exact Except.noConfusion h

theorem read_number_err (L : Nat) (F : String) (start : Nat) (cs : List Char)
    (e : LumeError) (h : read_number L F start cs = .error e) : ErrorInv L F e := by
  rw [read_number] at h
  split at h
  split at h
  · rename_i e0 heq0
    injection h with h
    subst h
    split at heq0
    · split at heq0
      · split at heq0
        · injection heq0 with heq0
          subst heq0
          exact errorInv_of_ne _ _ _ _ (by decide) (by decide)
        · exact Except.noConfusion heq0
    · exact Except.noConfusion heq0
  · rename_i numStr1 i1 rest1 heq1
    rcases hdot : read_number_dot numStr1 i1 rest1 with ⟨has_dot, numStr2, i2, rest2⟩
    rw [hdot] at h
    simp only [] at h
    split at h
    · rename_i e0 heq2
      injection h with h
      subst h
      exact (read_number_exp_err F start numStr2 i2 rest2 e0 heq2).2 L
    · repeat' split at h
      all_goals first
        | exact Except.noConfusion h
        | (injection h with h
           subst h
           exact errorInv_of_ne _ _ _ _ (by decide) (by decide))

theorem skip_block_comment_err (L : Nat) (F : String) :
    ∀ (n : Nat) (cs : List Char), cs.length ≤ n →
      ∀ (depth off : Nat) (e : LumeError),
        skip_block_comment L F depth cs off = .error e → ErrorInv L F e := by
  intro n
  induction n with
  | zero =>
    intro cs hlen depth off e h
    cases cs with
    | nil =>
      cases depth with
      | zero => exact Except.noConfusion h
      | succ d =>
        injection h with h
        subst h
        exact ⟨fun _ => rfl, by decide⟩
    | cons c rest => simp at hlen
  | succ n ih =>
    intro cs hlen depth off e h
    rw [skip_block_comment.eq_def] at h
    split at h
    · exact Except.noConfusion h
    · injection h with h
      subst h
      exact ⟨fun _ => rfl, by decide⟩
    · exact ih _ (by simp at hlen; omega) _ _ e h
    · exact ih _ (by simp at hlen; omega) _ _ e h
    · exact ih _ (by simp at hlen; omega) _ _ e h
    · exact ih _ (by simp at hlen; omega) _ _ e h
    · exact ih _ (by simp at hlen; omega) _ _ e h

theorem lexStepPunct2_err (F : String) (c : Char) (rest : List Char) (off : Nat)
    (e : LumeError) (h : lexStepPunct2 F c rest off = .error e) :
    ∀ L, ErrorInv L F e := by
  intro L
  rw [lexStepPunct2.eq_def] at h
  repeat' split at h
  all_goals first
    | exact Except.noConfusion h
    | (injection h with h
       subst h
       exact errorInv_of_ne _ _ _ _ (unexpectedChar_msgs c).1 (unexpectedChar_msgs c).2)

theorem lexStepPunct_err (F : String) (c : Char) (rest : List Char) (off : Nat)
    (e : LumeError) (h : lexStepPunct F c rest off = .error e) :
    ∀ L, ErrorInv L F e := by
  rw [lexStepPunct.eq_def] at h
  repeat' split at h
  all_goals first
    | exact Except.noConfusion h
    | exact lexStepPunct2_err F c rest off e h

theorem lexStepOp3_err (F : String) (c : Char) (rest : List Char) (off : Nat)
    (e : LumeError) (h : lexStepOp3 F c rest off = .error e) :
    ∀ L, ErrorInv L F e := by
  rw [lexStepOp3.eq_def] at h
  repeat' split at h
  all_goals first
    | exact Except.noConfusion h
    | exact lexStepPunct_err F c rest off e h

theorem lexStepOp2_err (L : Nat) (F : String) (c : Char) (rest : List Char) (off : Nat)
    (e : LumeError) (h : lexStepOp2 L F c rest off = .error e) : ErrorInv L F e := by
  rw [lexStepOp2.eq_def] at h
  repeat' split at h
  all_goals first
    | exact Except.noConfusion h
    | exact lexStepOp3_err F c rest off e h L
    | (rename_i heqb
       injection h with h
       subst h
       exact skip_block_comment_err L F _ _ (le_refl _) 1 (off + 2) _ heqb)

theorem lexStepOp_err (L : Nat) (F : String) (c : Char) (rest : List Char) (off : Nat)
    (e : LumeError) (h : lexStepOp L F c rest off = .error e) : ErrorInv L F e := by
  rw [lexStepOp.eq_def] at h
  repeat' split at h
  all_goals first
    | exact Except.noConfusion h
    | exact lexStepOp2_err L F c rest off e h
    | (injection h with h
       subst h
       exact errorInv_of_ne _ _ _ _ (by decide) (by decide))

theorem lexStep_err (L : Nat) (F : String) (A : Char → Bool) (c : Char) (rest : List Char)
    (off : Nat) (e : LumeError) (h : lexStep L F A c rest off = .error e) :
    ErrorInv L F e := by
  rw [lexStep.eq_def] at h
  split at h
  case isTrue hc => exact Except.noConfusion h
  split at h
  case isTrue hc =>
    split at h
    · rename_i e0 heqn
      injection h with h
      subst h
      exact read_number_err L F off (c :: rest) _ heqn
    · split at h
      exact Except.noConfusion h
  split at h
  case isTrue hc =>
    split at h
    rename_i ident cs1 off1 pos1 heqi
    split at h
    · rename_i cs2tl
      split at h
      · rename_i e0 heqs
        injection h with h
        subst h
        rw [read_string_content] at heqs
        exact read_string_content_go_err L F false pos1 (cs2tl.length + 1) ""
          cs2tl (off1 + 1) pos1 _ heqs
      · exact Except.noConfusion h
    · rename_i cs2tl
      split at h
      · rename_i e0 heqp
        injection h with h
        subst h
        exact read_prefixed_char_err L F ident off cs2tl (off1 + 1) pos1 _ heqp
      · exact Except.noConfusion h
    · exact Except.noConfusion h
  split at h
  case isTrue hc =>
    split at h
    · rename_i e0 heqs
      injection h with h
      subst h
      rw [read_string_content] at heqs
      exact read_string_content_go_err L F true off (rest.length + 1) ""
        rest (off + 1) off _ heqs
    · exact Except.noConfusion h
  split at h
  case isTrue hc =>
    split at h
    · injection h with h
      subst h
      exact errorInv_of_ne _ _ _ _ (by decide) (by decide)
    · rename_i f rest2
      split at h
      case isTrue hfa =>
        split at h
        · split at h
          · rename_i e0 heqc
            injection h with h
            subst h
            exact read_char_literal_err L F off _ (off + 1) off _ heqc
          · exact Except.noConfusion h
        · split at h
          exact Except.noConfusion h
        · injection h with h
          subst h
          exact errorInv_of_ne _ _ _ _ (by decide) (by decide)
      case isFalse =>
        split at h
        · rename_i e0 heqc
          injection h with h
          subst h
          exact read_char_literal_err L F off _ (off + 1) off _ heqc
        · exact Except.noConfusion h
  exact lexStepOp_err L F c rest off e h

theorem lexLoop_err (L : Nat) (F : String) (A : Char → Bool) :
    ∀ (fuel : Nat) (cs : List Char) (off : Nat) (acc : List (Token × Span)) (e : LumeError),
      lexLoop L F A fuel cs off acc = .error e → ErrorInv L F e := by
  intro fuel
  induction fuel with
  | zero =>
    intro cs off acc e h
    cases cs with
    | nil => exact Except.noConfusion h
    | cons c rest =>
      injection h with h
      subst h
      exact errorInv_of_ne _ _ _ _ (by decide) (by decide)
  | succ fuel ih =>
    intro cs off acc e h
    cases cs with
    | nil => exact Except.noConfusion h
    | cons c rest =>
      rw [lexLoop] at h
      split at h
      · rename_i e0 heqs
        injection h with h
        subst h
        exact lexStep_err L F A c rest off _ heqs
      · rename_i ot cs1 off1 heqs
        exact ih cs1 off1 (acc ++ ot.toList) e h

/-! ## C10: the surrogate check in `read_prefixed_char` is dead code -/

/-- C10: no scan ever fails with the message
`character literal contains invalid Unicode surrogate`: the guard of
that error branch is unsatisfiable for a decoded Unicode scalar value. -/
theorem C10_no_surrogate_error (alpha : Char → Bool) (source file : String)
    (e : LumeError) (h : lexWith alpha source file = .error e) :
    ∀ sp2 : Span,
      e ≠ .Lexical "character literal contains invalid Unicode surrogate" sp2 := by
  rw [lexWith] at h
  have he := lexLoop_err (utf8Len (stripShebang source.data)) file alpha
    ((stripShebang source.data).length + 1) (stripShebang source.data) 0 [] e h
  intro sp2 hcontra
  rw [hcontra] at he
  exact he.2 rfl

/-- C10 witness: the theorem applied to the failing scan of `!`. -/
theorem C10_witness :
    (LumeError.Lexical "unexpected '!'; logical NOT is written as 'not'" ⟨0, 1, "f"⟩) ≠
      LumeError.Lexical "character literal contains invalid Unicode surrogate" ⟨0, 1, "f"⟩ :=
  C10_no_surrogate_error Char.isAlpha "!" "f" _ rfl ⟨0, 1, "f"⟩

/-! ## C5 (amended): the unterminated-block-comment span -/

/-- C5 (amended): every `unterminated block comment` error carries the
span `(0, n)` of the whole post-shebang source — `self.span(0,
self.source.len())` in the code — not a span starting at the position
where the unterminated comment begins. -/
theorem C5_amended (alpha : Char → Bool) (source file : String)
    (e : LumeError) (sp : Span)
    (h : lexWith alpha source file = .error e)
    (hmsg : e = .Lexical "unterminated block comment" sp) :
    sp = ⟨0, utf8Len (stripShebang source.data), file⟩ := by
  rw [lexWith] at h
  have he := lexLoop_err (utf8Len (stripShebang source.data)) file alpha
    ((stripShebang source.data).length + 1) (stripShebang source.data) 0 [] e h
  subst hmsg
  exact he.1 rfl

/-- C5 witness: scanning `a /*` fails with the unterminated-block-comment
error spanning the whole 4-byte source. -/
theorem C5_amended_witness :
    lexWith Char.isAlpha "a /*" "f" =
      Except.error (.Lexical "unterminated block comment" ⟨0, 4, "f"⟩) ∧
    (⟨0, 4, "f"⟩ : Span) = ⟨0, utf8Len (stripShebang ("a /*" : String).data), "f"⟩ :=
  ⟨rfl, C5_amended Char.isAlpha "a /*" "f" _ ⟨0, 4, "f"⟩ rfl rfl⟩

end Lume
